import Mathlib

/-!
Formal model of the glossary synchronization script
(`.github/scripts/sync_terms.py`).

The script synchronizes a glossary of translation terms between a local
JSON file and the ParaTranz remote API.  This file gives a shallow
embedding of its core logic:

* `make_request`  — the retrying transport (`for attempt in range(MAX_RETRIES)`
  loop, HTTP 429 special case);
* `get_term_history` — best-effort per-term history fetch with diff
  annotation and optional keyword search;
* `get_remote_terms` — page-based fetch of the full remote collection;
* `update_remote_terms` — batched push of the merged collection;
* `merge_terms` — the merge/reconciliation algorithm.

Modelling conventions:

* A Python dict field that may be missing is an `OptField`: `absent`
  (key not present), `null` (key present, value `None`), or `val a`.
  Python truthiness is modelled per use site (`0`, `None`, `[]` and a
  missing key are falsy).
* Python dicts used as keyed collections (`local_dict`, `remote_dict`,
  `merged_dict`, `history_cache`) are insertion-ordered association
  lists; `{**a, **b}` is a fold of in-place upserts of `b`'s entries
  over `a`, which is exactly CPython's dict-merge semantics.
* Network effects are oracles: a function from the request (attempt
  number, page number, term id, batch index) to the response the server
  would give.  Timestamps are drawn from `Nat`, an ordered domain
  standing for the ISO timestamps the API returns (the script only
  compares them with `>` and stores them verbatim).
* History payloads are modelled as schema-conforming records
  (`created_at`, nested `user.username`, `action` present); the script
  indexes these fields directly and a malformed payload is folded into
  the generic failure constructor of the payload oracle.
* Exceptions are `Except String`; `sleep` calls are logged into an
  explicit list so that waiting behaviour is observable.
-/

set_option autoImplicit false

namespace SyncTerms

/-- Presence-aware value of a JSON/dict field: the key may be absent,
present with `None`, or present with a value. -/
inductive OptField (α : Type) where
  | absent : OptField α
  | null : OptField α
  | val : α → OptField α
deriving DecidableEq, Repr

/-! ## Transport: `make_request` (sync_terms.py lines 62–115)

`MAX_RETRIES = 3`, `RETRY_DELAY = 5`.  The loop body issues one HTTP
request per iteration.  The outcome of the `attempt`-th request is given
by a `server` oracle: either the request succeeds (`raise_for_status`
passes and the response is returned), or it raises an `HTTPError` with
status 429 carrying an optional `Retry-After` header, or it raises some
other `RequestException`. -/

def MAX_RETRIES : Nat := 3

def RETRY_DELAY : Nat := 5

/-- Outcome of one underlying `requests.request` call. -/
inductive AttemptOutcome where
  | ok : AttemptOutcome
  | rate429 : Option Nat → AttemptOutcome
  | fail : AttemptOutcome
deriving DecidableEq, Repr

/-- Result of `make_request` as observed by the caller. -/
inductive ReqResult where
  /-- the response of the given attempt is returned -/
  | success : Nat → ReqResult
  /-- the exception of the given attempt propagates (`raise`) -/
  | raised : Nat → ReqResult
  /-- the `for` loop is exhausted by a 429 `continue` on its final
  iteration and the function falls off its end: Python returns `None`. -/
  | noReturn : ReqResult
deriving DecidableEq, Repr

/-- The `for attempt in range(MAX_RETRIES)` loop of `make_request`,
over the list of remaining attempt indices.  Returns the result, the
list of `time.sleep` durations performed, and the list of attempt
indices for which a request was actually issued.

Source (lines 83–115):
```
for attempt in range(MAX_RETRIES):
    try:
        response = requests.request(...)
        response.raise_for_status()
        return response
    except requests.exceptions.RequestException as e:
        if isinstance(e, HTTPError) and e.response.status_code == 429:
            retry_after = int(e.response.headers.get('Retry-After', RETRY_DELAY))
            time.sleep(retry_after)
            continue
        if attempt < MAX_RETRIES - 1:
            time.sleep(RETRY_DELAY)
        else:
            raise
```
-/
def requestLoop (server : Nat → AttemptOutcome) : List Nat → ReqResult × List Nat × List Nat
  | [] => (.noReturn, [], [])
  | attempt :: rest =>
    match server attempt with
    | .ok => (.success attempt, [], [attempt])
    | .rate429 retryAfter =>
      let w := retryAfter.getD RETRY_DELAY
      let r := requestLoop server rest
      (r.1, w :: r.2.1, attempt :: r.2.2)
    | .fail =>
      if attempt < MAX_RETRIES - 1 then
        let r := requestLoop server rest
        (r.1, RETRY_DELAY :: r.2.1, attempt :: r.2.2)
      else
        (.raised attempt, [], [attempt])

/-- `make_request`: run the retry loop over attempts `0, …, MAX_RETRIES-1`. -/
def make_request (server : Nat → AttemptOutcome) : ReqResult × List Nat × List Nat :=
  requestLoop server (List.range MAX_RETRIES)

/-- The number of requests issued by the loop never exceeds the number of
remaining attempt indices: every request, a 429-retried one included,
consumes one loop iteration. -/
theorem requestLoop_requests_le (server : Nat → AttemptOutcome) :
    ∀ attempts : List Nat, (requestLoop server attempts).2.2.length ≤ attempts.length := by
  intro attempts
  induction attempts with
  | nil => simp [requestLoop]
  | cons a rest ih =>
    cases h : server a with
    | ok => simp [requestLoop, h]
    | rate429 retryAfter =>
      simp only [requestLoop, h, List.length_cons]
      exact Nat.succ_le_succ ih
    | fail =>
      by_cases hlt : a < MAX_RETRIES - 1
      · simp only [requestLoop, h, if_pos hlt, List.length_cons]
        exact Nat.succ_le_succ ih
      · simp [requestLoop, h, if_neg hlt]

/-- A server whose requests fail twice and then succeed: within the
`MAX_RETRIES = 3` budget, `make_request` succeeds on the third attempt. -/
def serverTwoFailuresThenOk : Nat → AttemptOutcome :=
  fun n => if n < 2 then .fail else .ok

/-- The same server behaviour preceded by a single rate-limit response
with `Retry-After: 3`: request 0 gets HTTP 429, and request `n + 1`
behaves like request `n` of `serverTwoFailuresThenOk`. -/
def serverRateLimitedFirst : Nat → AttemptOutcome :=
  fun n => if n = 0 then .rate429 (some 3) else serverTwoFailuresThenOk (n - 1)

/-- C1, counterexample.  The claim states that a 429 retry is not counted
against the `MAX_RETRIES` budget, so that after one 429 the full budget
remains available for other failures.  Concretely: `serverTwoFailuresThenOk`
(two failures, then success) succeeds within the budget, so under the claim
prefixing a single 429 response (`serverRateLimitedFirst`) must still
succeed.  The code instead raises after the two failures, because the 429
`continue` consumed the first of the three loop iterations. -/
theorem C1_counterexample :
    (make_request serverTwoFailuresThenOk).1 = ReqResult.success 2 ∧
      (make_request serverRateLimitedFirst).1 = ReqResult.raised 2 ∧
      serverRateLimitedFirst 0 = AttemptOutcome.rate429 (some 3) ∧
      (make_request serverRateLimitedFirst).2.1 = [3, RETRY_DELAY] := by
  decide

/-- C1, amended.  On a rate-limit response to the first request,
`make_request` sleeps for the server-provided `Retry-After` duration
(falling back to `RETRY_DELAY` when the header is absent) and then
retries — but the retry consumes an attempt: the loop continues with
only the remaining attempt indices `[1, 2]`, and over any run at most
`MAX_RETRIES` requests are ever issued, 429-retried ones included. -/
theorem C1_rate_limit_consumes_attempt (server : Nat → AttemptOutcome)
    (retryAfter : Option Nat) (h : server 0 = .rate429 retryAfter) :
    (make_request server).2.1.head? = some (retryAfter.getD RETRY_DELAY) ∧
      make_request server =
        ((requestLoop server [1, 2]).1,
          retryAfter.getD RETRY_DELAY :: (requestLoop server [1, 2]).2.1,
          0 :: (requestLoop server [1, 2]).2.2) ∧
      (make_request server).2.2.length ≤ MAX_RETRIES := by
  have hrange : List.range MAX_RETRIES = [0, 1, 2] := by decide
  have hloop : make_request server =
      ((requestLoop server [1, 2]).1,
        retryAfter.getD RETRY_DELAY :: (requestLoop server [1, 2]).2.1,
        0 :: (requestLoop server [1, 2]).2.2) := by
    simp [make_request, hrange, requestLoop, h]
  refine ⟨?_, hloop, ?_⟩
  · rw [hloop]; rfl
  · have := requestLoop_requests_le server (List.range MAX_RETRIES)
    simpa [make_request, MAX_RETRIES] using this

/-- A server that answers the first request with HTTP 429
(`Retry-After: 3`) and every later request successfully. -/
def serverRateLimitedThenOk : Nat → AttemptOutcome :=
  fun n => if n = 0 then .rate429 (some 3) else .ok

/-- C1, witness for `C1_rate_limit_consumes_attempt` at
`serverRateLimitedThenOk`: one sleep of 3 time units, then success on
attempt 1, with 2 requests issued in total. -/
theorem C1_rate_limit_consumes_attempt_witness :
    (make_request serverRateLimitedThenOk).2.1.head? = some 3 ∧
      make_request serverRateLimitedThenOk =
        ((requestLoop serverRateLimitedThenOk [1, 2]).1,
          3 :: (requestLoop serverRateLimitedThenOk [1, 2]).2.1,
          0 :: (requestLoop serverRateLimitedThenOk [1, 2]).2.2) ∧
      (make_request serverRateLimitedThenOk).2.2.length ≤ MAX_RETRIES := by
  have h := C1_rate_limit_consumes_attempt serverRateLimitedThenOk (some 3) (by decide)
  simpa using h

/-- A server that answers every request with HTTP 429 (`Retry-After: 1`). -/
def serverAlwaysRateLimited : Nat → AttemptOutcome :=
  fun _ => .rate429 (some 1)

/-- C10.  `make_request` does not always return a response or raise:
when all `MAX_RETRIES` loop iterations receive HTTP 429, each 429 branch
ends in `continue`, the final `continue` exhausts the `for` loop, and the
function falls off its end — Python returns `None` even though the
function is annotated `-> requests.Response`.  The run sleeps three
times for the server-provided 1 time unit and issues requests on all
three attempts. -/
theorem C10_none_return :
    make_request serverAlwaysRateLimited = (ReqResult.noReturn, [1, 1, 1], [0, 1, 2]) := by
  decide

/-! ## History fetcher: `get_term_history` (lines 117–158)

The raw history payload of a term is a JSON array of entries carrying
`created_at`, `user.username`, `action` and optional
`translation`/`context` values.  The underlying request may fail
(exception from `make_request` or from `response.json()`), or the
payload may be malformed (not an array of objects); in either case the
processing inside the `try` block raises and the `except` handler logs
and returns `[]`. -/

/-- One raw history entry as returned by the API, schema-conforming.
`user` is the nested `user.username` string. -/
structure RawHistoryEntry where
  created_at : Nat
  user : String
  action : String
  translation : Option String
  context : Option String
deriving DecidableEq, Repr

/-- The body of a history response: either an array of entries or some
malformed payload on which the item-processing loop raises. -/
inductive HistoryPayload where
  | arr : List RawHistoryEntry → HistoryPayload
  | malformed : HistoryPayload
deriving DecidableEq, Repr

/-- A raw entry annotated with the `translation`/`context` of the entry
immediately preceding it in the raw list (`old_translation`,
`old_context`; `None` for the first entry). -/
structure AnnotatedEntry where
  entry : RawHistoryEntry
  old_translation : Option String
  old_context : Option String
deriving DecidableEq, Repr

/-- The annotation loop of `get_term_history` (lines 125–141): thread the
previous entry's `translation`/`context` through the list. -/
def annotateHistory : List RawHistoryEntry → Option String → Option String → List AnnotatedEntry
  | [], _, _ => []
  | h :: rest, prevT, prevC =>
    ⟨h, prevT, prevC⟩ :: annotateHistory rest h.translation h.context

/-- Contiguous-substring test on character lists (Python's `in` on
strings). -/
def charsContain (q : List Char) : List Char → Bool
  | [] => q.isEmpty
  | c :: rest => List.isPrefixOf q (c :: rest) || charsContain q rest

/-- `search_query in str(keyword).lower()`, for one keyword; a `None`
keyword is skipped by the comprehension's guard. -/
def keywordMatches (q : String) (k : Option String) : Bool :=
  match k with
  | none => false
  | some s => charsContain q.toList s.toLower.toList

/-- Does an annotated entry match the (already lowercased) search query
via its `search_keywords` list (lines 134–153)? -/
def entryMatchesQuery (q : String) (h : AnnotatedEntry) : Bool :=
  [some h.entry.user, some h.entry.action, h.entry.translation, h.entry.context,
    h.old_translation, h.old_context].any (keywordMatches q)

/-- `get_term_history`: on a failed request or a malformed payload the
`except` handler returns `[]`; otherwise annotate every entry with the
previous entry's values and, when a search query is given, keep the
entries one of whose keywords contains the lowercased query. -/
def get_term_history (resp : Except String HistoryPayload) (search_query : Option String) :
    List AnnotatedEntry :=
  match resp with
  | .error _ => []
  | .ok .malformed => []
  | .ok (.arr raw) =>
    let history := annotateHistory raw none none
    match search_query with
    | none => history
    | some q => history.filter (entryMatchesQuery q.toLower)

/-- C9 (confirmed).  For every term's history request and every search
query, a failure of the underlying request (`Except.error`) or of the
processing of its payload (a malformed body, on which the annotation
loop raises) makes `get_term_history` return the empty sequence instead
of propagating the error. -/
theorem C9_history_failure_empty :
    (∀ (e : String) (q : Option String), get_term_history (Except.error e) q = []) ∧
      (∀ q : Option String, get_term_history (Except.ok HistoryPayload.malformed) q = []) := by
  constructor
  · intro e q; rfl
  · intro q; rfl

/-! ## Remote term repository: `get_remote_terms` (lines 160–193)

The fetch loop requests page 1, 2, … with a fixed `page_size = 50`,
extends the accumulator with each page's `results`, and breaks as soon
as a page returns fewer than `page_size` items.  The `pages` oracle
gives the `results` array of each page (the record type is opaque for
this loop, so it is a type parameter).  The loop has no bound in the
source — a server always answering full pages loops forever — so the
model takes a fuel argument; the theorems only concern runs in which a
short page occurs within the fuel. -/

def page_size_terms : Nat := 50

/-- The paging loop, from a given page number, returning the
accumulated results and the list of page numbers requested.  Fuel 0
stands for the (unreachable under the theorems' hypotheses) case of a
run that never sees a short page. -/
def getPagesAux {α : Type} (pages : Nat → List α) : Nat → Nat → List α × List Nat
  | 0, _ => ([], [])
  | fuel + 1, page =>
    let results := pages page
    if results.length < page_size_terms then
      (results, [page])
    else
      let r := getPagesAux pages fuel (page + 1)
      (results ++ r.1, page :: r.2)

/-- `get_remote_terms`: page from page 1. -/
def get_remote_terms {α : Type} (pages : Nat → List α) (fuel : Nat) : List α × List Nat :=
  getPagesAux pages fuel 1

/-- The paging loop stops exactly at the first short page: if pages
`p, …, p+k-1` are full-size and page `p+k` is short, the loop returns
the concatenation of pages `p, …, p+k` and requests exactly those. -/
theorem getPagesAux_stops_at_first_short {α : Type} (pages : Nat → List α) :
    ∀ (k fuel p : Nat),
      (∀ j, j < k → ¬ (pages (p + j)).length < page_size_terms) →
      (pages (p + k)).length < page_size_terms →
      k + 1 ≤ fuel →
      getPagesAux pages fuel p = (((List.range' p (k + 1)).map pages).flatten, List.range' p (k + 1)) := by
  intro k
  induction k with
  | zero =>
    intro fuel p _ hshort hfuel
    match fuel, hfuel with
    | fuel + 1, _ =>
      simp only [getPagesAux]
      rw [if_pos (by simpa using hshort)]
      simp [List.range']
  | succ k ih =>
    intro fuel p hfull hshort hfuel
    match fuel, hfuel with
    | fuel + 1, hfuel =>
      have hfirst : ¬ (pages p).length < page_size_terms := by
        have := hfull 0 (Nat.succ_pos k)
        simpa using this
      simp only [getPagesAux]
      rw [if_neg hfirst]
      have hrest := ih fuel (p + 1)
        (fun j hj => by
          have := hfull (j + 1) (Nat.succ_lt_succ hj)
          simpa [Nat.add_comm, Nat.add_assoc, Nat.add_left_comm] using this)
        (by simpa [Nat.add_comm, Nat.add_assoc, Nat.add_left_comm] using hshort)
        (Nat.le_of_succ_le_succ hfuel)
      rw [hrest]
      simp [List.range']

/-- C6, amended.  `get_remote_terms` requests successive pages starting
at page 1 and stops exactly at the first page whose result list is
shorter than the configured page size — which is 50 in the source, not
100: it returns the concatenation of all fetched pages' results in
order, having requested exactly pages `1, …, k+1` when page `k+1` is
the first short one. -/
theorem C6_pagination_stops_first_short {α : Type} (pages : Nat → List α) (k fuel : Nat)
    (hfull : ∀ j, j < k → ¬ (pages (1 + j)).length < page_size_terms)
    (hshort : (pages (1 + k)).length < page_size_terms)
    (hfuel : k + 1 ≤ fuel) :
    get_remote_terms pages fuel =
      (((List.range' 1 (k + 1)).map pages).flatten, List.range' 1 (k + 1)) :=
  getPagesAux_stops_at_first_short pages k fuel 1 hfull hshort hfuel

/-- Page oracle delivering pages of sizes 100, 100, 37 (then empty). -/
def threePagesOracle : Nat → List Unit :=
  fun p => if p ≤ 2 then List.replicate 100 () else if p = 3 then List.replicate 37 () else []

set_option maxRecDepth 8000 in
/-- C6, witness for `C6_pagination_stops_first_short`: on pages of sizes
[100, 100, 37] the fetch requests exactly the three pages 1, 2, 3 and
returns 237 records (37 < 50, so the third page is the first short one). -/
theorem C6_pagination_stops_first_short_witness :
    (get_remote_terms threePagesOracle 5).2 = [1, 2, 3] ∧
      (get_remote_terms threePagesOracle 5).1.length = 237 := by
  have h := C6_pagination_stops_first_short threePagesOracle 2 5
    (by decide) (by decide) (by decide)
  rw [h]
  exact ⟨rfl, by decide⟩

/-- Page oracle delivering pages of sizes 60, 10 (then empty). -/
def shortishPagesOracle : Nat → List Unit :=
  fun p => if p = 1 then List.replicate 60 () else if p = 2 then List.replicate 10 () else []

/-- C6, counterexample.  The claim describes the fetch as stopping at
the first page with fewer items than a page size of 100.  Page 1 of
`shortishPagesOracle` has 60 < 100 items, so under the claim the fetch
would stop after requesting page 1 alone and return 60 terms; the code's
page size is 50, so it continues (60 ≥ 50), requests page 2 as well, and
returns 70 terms. -/
theorem C6_counterexample :
    (shortishPagesOracle 1).length < 100 ∧
      (get_remote_terms shortishPagesOracle 5).2 = [1, 2] ∧
      (get_remote_terms shortishPagesOracle 5).2 ≠ [1] ∧
      (get_remote_terms shortishPagesOracle 5).1.length = 70 := by
  decide

/-! ## Remote term repository: `update_remote_terms` (lines 195–223)

The push splits the term list into consecutive batches of
`page_size = 100` (`terms[page*100 : page*100+100]` for
`page in range((len(terms)+99)//100)`), POSTs each batch in order, and
raises `ValueError` if a response is not a mapping with a `message`
field.  Any exception — a failed request or the `ValueError` — is
logged and re-raised, so the first failing batch aborts the loop.  The
response of the `i`-th POST is an oracle: `Except.error e` for a
request error, `.ok none` for a response without a `message` field,
`.ok (some m)` for a confirmed batch.  The generic record type of the
pushed terms is a type parameter. -/

def page_size_update : Nat := 100

/-- The batch slices `terms[page*100 : page*100+100]` in order, as
computed by the source from `total_pages = (len(terms)+99)//100`. -/
def batches {α : Type} (terms : List α) : List (List α) :=
  (List.range ((terms.length + page_size_update - 1) / page_size_update)).map
    (fun page => ((terms.drop (page * page_size_update)).take page_size_update))

/-- The batch-submission loop from a given batch index: returns the
indices of the batches actually submitted and the overall outcome
(`.ok` with the success message, or the first error). -/
def pushBatches {α : Type} (post : Nat → List α → Except String (Option String)) :
    Nat → List (List α) → List Nat × Except String String
  | _, [] => ([], .ok "所有术语更新成功")
  | i, b :: rest =>
    match post i b with
    | .error e => ([i], .error e)
    | .ok none => ([i], .error "API响应格式错误")
    | .ok (some _) =>
      let r := pushBatches post (i + 1) rest
      (i :: r.1, r.2)

/-- `update_remote_terms`: submit the batches from index 0. -/
def update_remote_terms {α : Type} (post : Nat → List α → Except String (Option String))
    (terms : List α) : List Nat × Except String String :=
  pushBatches post 0 (batches terms)

/-- Did the `i`-th POST succeed with a confirmation `message` field? -/
def confirmedPost {α : Type} (post : Nat → List α → Except String (Option String))
    (i : Nat) (b : List α) : Bool :=
  match post i b with
  | .ok (some _) => true
  | _ => false

/-- Did the overall push report success? -/
def pushSucceeded (r : List Nat × Except String String) : Bool :=
  match r.2 with
  | .ok _ => true
  | .error _ => false

/-- Recursive chunking of a list into slices of `page_size_update`. -/
def chunksRec {α : Type} : List α → List (List α)
  | [] => []
  | x :: xs =>
    ((x :: xs).take page_size_update) :: chunksRec ((x :: xs).drop page_size_update)
termination_by l => l.length
decreasing_by
  simp only [List.length_drop, List.length_cons, page_size_update]
  omega

/-- Unfolding equation of `chunksRec` on the empty list. -/
theorem chunksRec_nil {α : Type} : chunksRec ([] : List α) = [] := by
  rw [chunksRec]

/-- Unfolding equation of `chunksRec` on a nonempty list. -/
theorem chunksRec_cons {α : Type} (x : α) (xs : List α) :
    chunksRec (x :: xs) =
      ((x :: xs).take page_size_update) :: chunksRec ((x :: xs).drop page_size_update) := by
  rw [chunksRec]

/-- The source's arithmetic batch slicing coincides with recursive
chunking. -/
theorem batches_eq_chunksRec {α : Type} (terms : List α) : batches terms = chunksRec terms := by
  generalize hn : terms.length = n
  induction n using Nat.strong_induction_on generalizing terms with
  | _ n ih =>
    match terms with
    | [] =>
      rw [chunksRec_nil]
      simp [batches, page_size_update]
    | x :: xs =>
      have hlen : (x :: xs).length = n := hn
      have hceil : ((x :: xs).length + page_size_update - 1) / page_size_update =
          (((x :: xs).drop page_size_update).length + page_size_update - 1) / page_size_update
            + 1 := by
        simp only [page_size_update, List.length_drop, List.length_cons]
        omega
      rw [chunksRec_cons]
      simp only [batches, hceil, List.range_succ_eq_map, List.map_cons, Nat.zero_mul,
        List.drop_zero, List.map_map]
      congr 1
      have hdroplen : ((x :: xs).drop page_size_update).length = n - page_size_update := by
        simp only [List.length_drop, hlen]
      have hlt : n - page_size_update < n := by
        have hpos : 0 < n := by rw [← hlen]; simp
        simp only [page_size_update]
        omega
      have hrec := ih (n - page_size_update) hlt ((x :: xs).drop page_size_update) hdroplen
      rw [← hrec]
      simp only [batches, List.length_drop, List.length_cons]
      apply List.map_congr_left
      intro page _
      simp only [Function.comp]
      rw [List.drop_drop]
      congr 2
      simp [Nat.succ_mul, Nat.add_comm]

/-- Flattening the chunks gives back the original list: the batches
cover the input without loss or duplication. -/
theorem chunksRec_flatten {α : Type} (l : List α) : (chunksRec l).flatten = l := by
  generalize hn : l.length = n
  induction n using Nat.strong_induction_on generalizing l with
  | _ n ih =>
    match l with
    | [] => rw [chunksRec_nil]; rfl
    | x :: xs =>
      rw [chunksRec_cons]
      have hlt : ((x :: xs).drop page_size_update).length < n := by
        simp only [List.length_drop, List.length_cons, ← hn, page_size_update]
        omega
      have := ih ((x :: xs).drop page_size_update).length hlt ((x :: xs).drop page_size_update)
        rfl
      simp [this]

/-- A nonempty list has a nonempty chunking. -/
theorem chunksRec_ne_nil {α : Type} (x : α) (xs : List α) : chunksRec (x :: xs) ≠ [] := by
  rw [chunksRec_cons]
  simp

/-- Every chunk except possibly the last has exactly `page_size_update`
elements: the batches are consecutive and of fixed size. -/
theorem chunksRec_dropLast_length {α : Type} (l : List α) :
    ∀ b ∈ (chunksRec l).dropLast, b.length = page_size_update := by
  generalize hn : l.length = n
  induction n using Nat.strong_induction_on generalizing l with
  | _ n ih =>
    match l with
    | [] => rw [chunksRec_nil]; intro b hb; cases hb
    | x :: xs =>
      rw [chunksRec_cons]
      cases hd : (x :: xs).drop page_size_update with
      | nil =>
        rw [chunksRec_nil]
        intro b hb
        cases hb
      | cons y ys =>
        rw [List.dropLast_cons_of_ne_nil (chunksRec_ne_nil y ys)]
        intro b hb
        rcases List.mem_cons.1 hb with hhead | htail
        · subst hhead
          have hgt : page_size_update < (x :: xs).length := by
            have : (x :: xs).length - page_size_update = ys.length + 1 := by
              rw [← List.length_drop, hd]; rfl
            simp only [List.length_cons] at this ⊢
            omega
          simp only [List.length_take, List.length_cons]
          simp only [List.length_cons] at hgt
          omega
        · have hlt : (y :: ys).length < n := by
            have : (x :: xs).length - page_size_update = (y :: ys).length := by
              rw [← List.length_drop, hd]
            simp only [List.length_cons, ← hn, page_size_update] at this ⊢
            omega
          exact ih (y :: ys).length hlt (y :: ys) rfl b htail

/-- The push reports overall success exactly when every batch's POST is
confirmed with a `message` field. -/
theorem pushBatches_succeeds_iff {α : Type}
    (post : Nat → List α → Except String (Option String)) :
    ∀ (bs : List (List α)) (i : Nat),
      pushSucceeded (pushBatches post i bs) = true ↔
        ∀ j, j < bs.length → confirmedPost post (i + j) (bs.getD j []) = true := by
  intro bs
  induction bs with
  | nil =>
    intro i
    simp [pushBatches, pushSucceeded]
  | cons b rest ih =>
    intro i
    cases h : post i b with
    | error e =>
      simp only [pushBatches, h, pushSucceeded]
      constructor
      · intro hfalse; cases hfalse
      · intro hall
        have h0 := hall 0 (by simp)
        rw [confirmedPost] at h0
        simp [h] at h0
    | ok mo =>
      cases mo with
      | none =>
        simp only [pushBatches, h, pushSucceeded]
        constructor
        · intro hfalse; cases hfalse
        · intro hall
          have h0 := hall 0 (by simp)
          rw [confirmedPost] at h0
          simp [h] at h0
      | some m =>
        have hstep : pushSucceeded (pushBatches post i (b :: rest)) =
            pushSucceeded (pushBatches post (i + 1) rest) := by
          simp [pushBatches, h, pushSucceeded]
        rw [hstep, ih (i + 1)]
        constructor
        · intro hall j hj
          match j with
          | 0 =>
            rw [confirmedPost]
            simp [h]
          | j + 1 =>
            have := hall j (by simpa using Nat.lt_of_succ_lt_succ hj)
            simpa [Nat.add_comm, Nat.add_assoc, Nat.add_left_comm] using this
        · intro hall j hj
          have := hall (j + 1) (by simpa using Nat.succ_lt_succ hj)
          simpa [Nat.add_comm, Nat.add_assoc, Nat.add_left_comm] using this

/-- If batches `i, …, i+k-1` are confirmed and batch `i+k` is not, the
loop submits exactly batches `i, …, i+k` and reports failure. -/
theorem pushBatches_first_failure {α : Type}
    (post : Nat → List α → Except String (Option String)) :
    ∀ (bs : List (List α)) (i k : Nat),
      k < bs.length →
      (∀ j, j < k → confirmedPost post (i + j) (bs.getD j []) = true) →
      confirmedPost post (i + k) (bs.getD k []) = false →
      (pushBatches post i bs).1 = List.range' i (k + 1) ∧
        pushSucceeded (pushBatches post i bs) = false := by
  intro bs
  induction bs with
  | nil =>
    intro i k hk
    cases hk
  | cons b rest ih =>
    intro i k hk hok hfail
    match k with
    | 0 =>
      rw [confirmedPost] at hfail
      simp only [Nat.add_zero, List.getD_cons_zero] at hfail
      cases h : post i b with
      | error e => simp [pushBatches, h, pushSucceeded, List.range']
      | ok mo =>
        cases mo with
        | none => simp [pushBatches, h, pushSucceeded, List.range']
        | some m => rw [h] at hfail; cases hfail
    | k + 1 =>
      have h0 := hok 0 (Nat.succ_pos k)
      rw [confirmedPost] at h0
      simp only [Nat.add_zero, List.getD_cons_zero] at h0
      cases h : post i b with
      | error e => rw [h] at h0; cases h0
      | ok mo =>
        cases mo with
        | none => rw [h] at h0; cases h0
        | some m =>
          have hrec := ih (i + 1) k (by simpa using Nat.lt_of_succ_lt_succ hk)
            (fun j hj => by
              have := hok (j + 1) (Nat.succ_lt_succ hj)
              simpa [Nat.add_comm, Nat.add_assoc, Nat.add_left_comm] using this)
            (by
              have := hfail
              simpa [Nat.add_comm, Nat.add_assoc, Nat.add_left_comm] using this)
          have hstep1 : (pushBatches post i (b :: rest)).1 =
              i :: (pushBatches post (i + 1) rest).1 := by
            simp [pushBatches, h]
          have hstep2 : pushSucceeded (pushBatches post i (b :: rest)) =
              pushSucceeded (pushBatches post (i + 1) rest) := by
            simp [pushBatches, h, pushSucceeded]
          refine ⟨?_, by rw [hstep2]; exact hrec.2⟩
          rw [hstep1, hrec.1]
          simp [List.range']

/-- C7 (confirmed).  `update_remote_terms` splits its input into
consecutive batches of `page_size_update = 100` terms submitted in
order (the batches flatten back to the input and all but the last have
exactly 100 elements); if the first failing batch is batch `k` (its
POST errors or its response lacks a `message` field), exactly batches
`0, …, k` are submitted — no later batch — and the push reports
failure; and the push reports success exactly when every batch is
confirmed. -/
theorem C7_batch_abort {α : Type} (post : Nat → List α → Except String (Option String))
    (terms : List α) :
    (batches terms).flatten = terms ∧
      (∀ b ∈ (batches terms).dropLast, b.length = page_size_update) ∧
      (∀ k, k < (batches terms).length →
        (∀ j, j < k → confirmedPost post j ((batches terms).getD j []) = true) →
        confirmedPost post k ((batches terms).getD k []) = false →
        (update_remote_terms post terms).1 = List.range (k + 1) ∧
          pushSucceeded (update_remote_terms post terms) = false) ∧
      (pushSucceeded (update_remote_terms post terms) = true ↔
        ∀ j, j < (batches terms).length →
          confirmedPost post j ((batches terms).getD j []) = true) := by
  refine ⟨?_, ?_, ?_, ?_⟩
  · rw [batches_eq_chunksRec]
    exact chunksRec_flatten terms
  · rw [batches_eq_chunksRec]
    exact chunksRec_dropLast_length terms
  · intro k hk hok hfail
    have := pushBatches_first_failure post (batches terms) 0 k hk
      (fun j hj => by simpa using hok j hj) (by simpa using hfail)
    rw [List.range_eq_range']
    exact ⟨this.1, this.2⟩
  · have := pushBatches_succeeds_iff post (batches terms) 0
    simpa using this

/-- A batch-post oracle that confirms batch 0, fails on batch 1 and
would confirm any later batch. -/
def failingSecondBatchPost : Nat → List Unit → Except String (Option String) :=
  fun i _ => if i = 1 then .error "boom" else .ok (some "ok")

set_option maxRecDepth 8000 in
/-- C7, witness for `C7_batch_abort`: 250 terms form 3 batches; batch 1
(the second of three) fails, so only batches 0 and 1 are submitted —
batch 2 is never sent — and the push reports failure. -/
theorem C7_batch_abort_witness :
    (update_remote_terms failingSecondBatchPost (List.replicate 250 ())).1 = [0, 1] ∧
      pushSucceeded (update_remote_terms failingSecondBatchPost (List.replicate 250 ())) =
        false ∧
      (batches (List.replicate 250 ())).length = 3 := by
  have h := (C7_batch_abort failingSecondBatchPost (List.replicate 250 ())).2.2.1 1
    (by decide) (by decide) (by decide)
  exact ⟨by rw [h.1]; rfl, h.2, by decide⟩

/-! ## Merge engine: `merge_terms` (lines 246–319)

A term record.  The fields the merge algorithm reads or writes are
explicit (`id`, `term_id`, `history`, `last_modified`,
`current_version`); `translation` and `context` are the content fields
the claims observe; `extra` stands for all remaining JSON fields of the
record, carried verbatim and never touched by the merge.  The stored
history entries are the pruned records built on line 271–294 of the
source (`version`, `created_at`, `user`, `action`, `changes`, `diff`). -/

/-- `changes`: the new `translation`/`context` values of one stored
history entry. -/
structure StoredChanges where
  translation : Option String
  context : Option String
deriving DecidableEq, Repr

/-- One old/new pair inside a stored `diff`. -/
structure DiffPair where
  old : Option String
  new : Option String
deriving DecidableEq, Repr

/-- `diff`: version-comparison info of one stored history entry. -/
structure StoredDiff where
  translation : DiffPair
  context : DiffPair
deriving DecidableEq, Repr

/-- One pruned history entry as stored in the local file. -/
structure StoredEntry where
  version : Nat
  created_at : Nat
  user : String
  action : String
  changes : StoredChanges
  diff : Option StoredDiff
deriving DecidableEq, Repr

/-- A glossary term record. -/
structure Term where
  id : OptField Int
  term_id : OptField Int
  translation : Option String
  context : Option String
  history : OptField (List StoredEntry)
  last_modified : OptField Nat
  current_version : OptField Nat
  extra : List (String × String)
deriving DecidableEq, Repr

/-- An insertion-ordered dict keyed by term identifier; a key of `none`
models the Python key `None` (a term with neither identifier field). -/
abbrev TermDict := List (Option Int × Term)

/-- `term.get('id', term.get('term_id'))` — the key under which a local
term is stored (line 249): the value of the `id` field if that key is
present (its `None` value included), else the value of `term_id` read
with `.get` (so `None` when absent or null). -/
def pyKey (t : Term) : Option Int :=
  match t.id with
  | .val v => some v
  | .null => none
  | .absent =>
    match t.term_id with
    | .val v => some v
    | _ => none

/-- Python dict insert/update: replace the value in place if the key is
present, else append the new binding. -/
def upsert (k : Option Int) (v : Term) : TermDict → TermDict
  | [] => [(k, v)]
  | (k', v') :: rest => if k' = k then (k', v) :: rest else (k', v') :: upsert k v rest

/-- Dict lookup (first — and, for dicts, only — binding of the key). -/
def dlookup (k : Option Int) : TermDict → Option Term
  | [] => none
  | (k', v) :: rest => if k' = k then some v else dlookup k rest

/-- The keys of a dict in order. -/
def dkeys (d : TermDict) : List (Option Int) := d.map Prod.fst

/-- The values of a dict in order. -/
def dvalues (d : TermDict) : List Term := d.map Prod.snd

/-- `{key(t): t for t in ts}` — build a dict from a term list. -/
def toDict (ts : List Term) : TermDict :=
  ts.foldl (fun d t => upsert (pyKey t) t d) []

/-- `term['id']` — the key of a remote term (line 250): raises
`KeyError` when the `id` field is absent. -/
def remoteKey (t : Term) : Except String (Option Int) :=
  match t.id with
  | .absent => .error "KeyError: id"
  | .null => .ok none
  | .val v => .ok (some v)

/-- `{term['id']: term for term in remote_terms}` — build the remote
dict by inserting left to right, failing if some remote record lacks
the `id` field. -/
def remoteDictAux : TermDict → List Term → Except String TermDict
  | d, [] => .ok d
  | d, t :: rest => do
    let k ← remoteKey t
    remoteDictAux (upsert k t d) rest

/-- Fold a dict's entries into another dict by upserting them in order:
`{**a, **b}` is `dictMerge a b`. -/
def dictMerge (a b : TermDict) : TermDict :=
  b.foldl (fun d kv => upsert kv.1 kv.2 d) a

/-- `merged_dict = {**local_dict, **remote_dict}` (lines 249–251). -/
def mergedDict (local_terms remote_terms : List Term) : Except String TermDict := do
  let rd ← remoteDictAux [] remote_terms
  pure (dictMerge (toDict local_terms) rd)


/-- `[term.get('id') for term in merged_dict.values() if term.get('id')]`
(line 257): the truthy `id` values — present, non-null and non-zero
(Python `0` is falsy). -/
def termIds (ts : List Term) : List Int :=
  ts.filterMap (fun t =>
    match t.id with
    | .val v => if v = 0 then none else some v
    | _ => none)

/-- Lines 261–262: the local watermark for a term id —
`local_term['last_modified'] if local_term and local_term.get('last_modified') else None`
(a stored timestamp of `0` is falsy, like an empty string). -/
def lastSyncTime (ld : TermDict) (v : Int) : Option Nat :=
  match dlookup (some v) ld with
  | some t =>
    match t.last_modified with
    | .val n => if n = 0 then none else some n
    | _ => none
  | none => none

/-- Lines 271–294: prune one annotated entry into a stored entry, with
1-based `version` from its position `i` in the filtered batch, and a
`diff` only for the recognized mutating actions. -/
def toStoredEntry (i : Nat) (h : AnnotatedEntry) : StoredEntry :=
  { version := i + 1
    created_at := h.entry.created_at
    user := h.entry.user
    action := h.entry.action
    changes := { translation := h.entry.translation, context := h.entry.context }
    diff :=
      if h.entry.action = "update" ∨ h.entry.action = "create" then
        some { translation := { old := h.old_translation, new := h.entry.translation }
               context := { old := h.old_context, new := h.entry.context } }
      else none }

/-- `enumerate(history)` over the pruning map. -/
def mapWithVersion : Nat → List AnnotatedEntry → List StoredEntry
  | _, [] => []
  | i, h :: rest => toStoredEntry i h :: mapWithVersion (i + 1) rest

/-- Lines 260–294 for one term id: fetch the (annotated, possibly
query-filtered) history, keep the entries with `created_at` strictly
after the local watermark when one exists, and prune them with version
numbers.  `histories` is the response oracle of
`GET /projects/{id}/terms/{term_id}/history`. -/
def computeNewHistory (ld : TermDict) (histories : Int → Except String HistoryPayload)
    (q : Option String) (v : Int) : List StoredEntry :=
  let history := get_term_history (histories v) q
  let history :=
    match lastSyncTime ld v with
    | some ts => history.filter (fun h => ts < h.entry.created_at)
    | none => history
  mapWithVersion 0 history

/-- Lines 256–294: the `history_cache`, an insertion-ordered dict from
term id to its nonempty new-history list (nothing is stored for a term
whose filtered history is empty, and an id already in the cache is not
recomputed). -/
def buildCache (ld : TermDict) (histories : Int → Except String HistoryPayload)
    (q : Option String) : List Int → List (Int × List StoredEntry) → List (Int × List StoredEntry)
  | [], cache => cache
  | v :: rest, cache =>
    let cache' :=
      if (cache.lookup v).isSome then cache
      else
        let h := computeNewHistory ld histories q v
        if h.isEmpty then cache else cache ++ [(v, h)]
    buildCache ld histories q rest cache'

/-- Lines 298–301: identifier normalization of one term.  If the `id`
key is absent, set it to `term.get('term_id')` (the legacy value, or
`None` when `term_id` is itself absent or null) and then delete the
`term_id` key if present.  A term whose `id` key is present is left
untouched — in particular `term_id` is NOT removed in that case. -/
def normalizeId (t : Term) : Term :=
  match t.id with
  | .absent =>
    let t1 : Term :=
      { t with id := match t.term_id with
                     | .val v => OptField.val v
                     | _ => OptField.null }
    match t1.term_id with
    | .absent => t1
    | _ => { t1 with term_id := .absent }
  | _ => t

/-- Lines 304–305: the new history attached to a (normalized) term —
`history_cache.get(term['id'], [])`, guarded by `if term.get('id'):`
(so nothing for a null, absent or zero id). -/
def attachedHistory (cache : List (Int × List StoredEntry)) (t : Term) : List StoredEntry :=
  match t.id with
  | .val v => if v = 0 then [] else (cache.lookup v).getD []
  | _ => []

/-- Lines 296–314: the per-term mutation pass — normalize the
identifier, then, when the cache holds new history for the term,
prepend it to the stored history (`history + term['history']`, the new
batch keeping its fetch order), stamp `last_modified` with the FIRST
new entry's `created_at` (`history[0]`, the oldest of the batch), and
recompute `current_version` as the new history length. -/
def processTerm (cache : List (Int × List StoredEntry)) (t0 : Term) : Term :=
  let t := normalizeId t0
  match attachedHistory cache t with
  | [] => t
  | h :: hs =>
    let newHist :=
      match t.history with
      | .val l => if l.isEmpty then h :: hs else (h :: hs) ++ l
      | _ => h :: hs
    { t with history := .val newHist
             last_modified := .val h.created_at
             current_version := .val newHist.length }

/-- `merge_terms(local_terms, remote_terms, search_query)`
(lines 246–319): build the key-unioned dict (remote entries overriding
local ones), preload the history cache for all truthy ids, then map the
per-term mutation pass over the merged values in dict order.  The only
uncaught-then-reraised failure reachable in the model is the `KeyError`
for a remote record without an `id` field. -/
def merge_terms (histories : Int → Except String HistoryPayload)
    (local_terms remote_terms : List Term) (q : Option String) :
    Except String (List Term) := do
  let md ← mergedDict local_terms remote_terms
  let ld := toDict local_terms
  let cache := buildCache ld histories q (termIds (dvalues md)) []
  pure ((dvalues md).map (processTerm cache))


/-! ### Dictionary lemmas -/

theorem dlookup_upsert_self (k : Option Int) (v : Term) (d : TermDict) :
    dlookup k (upsert k v d) = some v := by
  induction d with
  | nil => simp [upsert, dlookup]
  | cons e rest ih =>
    obtain ⟨k0, v0⟩ := e
    by_cases h : k0 = k
    · simp [upsert, dlookup, h]
    · rw [upsert, if_neg h, dlookup, if_neg h]
      exact ih

theorem dlookup_upsert_other (k k' : Option Int) (v : Term) (d : TermDict) (h : k' ≠ k) :
    dlookup k' (upsert k v d) = dlookup k' d := by
  induction d with
  | nil =>
    simp only [upsert, dlookup]
    rw [if_neg (fun he => h he.symm)]
  | cons e rest ih =>
    obtain ⟨k0, v0⟩ := e
    by_cases he : k0 = k
    · rw [upsert, if_pos he, dlookup, dlookup]
      subst he
      rw [if_neg (fun hx => h hx.symm), if_neg (fun hx => h hx.symm)]
    · rw [upsert, if_neg he, dlookup, dlookup]
      by_cases hk' : k0 = k'
      · rw [if_pos hk', if_pos hk']
      · rw [if_neg hk', if_neg hk']
        exact ih

theorem dkeys_upsert_mem (k : Option Int) (v : Term) (d : TermDict) (h : k ∈ dkeys d) :
    dkeys (upsert k v d) = dkeys d := by
  induction d with
  | nil => cases h
  | cons e rest ih =>
    obtain ⟨k0, v0⟩ := e
    by_cases he : k0 = k
    · rw [upsert, if_pos he]; rfl
    · have hmem : k ∈ dkeys rest := by
        rcases List.mem_cons.1 h with h0 | h0
        · exact absurd h0.symm he
        · exact h0
      rw [upsert, if_neg he]
      show k0 :: dkeys (upsert k v rest) = k0 :: dkeys rest
      rw [ih hmem]

theorem dkeys_upsert_not_mem (k : Option Int) (v : Term) (d : TermDict) (h : k ∉ dkeys d) :
    dkeys (upsert k v d) = dkeys d ++ [k] := by
  induction d with
  | nil => rfl
  | cons e rest ih =>
    obtain ⟨k0, v0⟩ := e
    have he : k0 ≠ k := fun hx => h (by simp [dkeys, hx])
    have hrest : k ∉ dkeys rest := fun hx => h (List.mem_cons_of_mem _ hx)
    rw [upsert, if_neg he]
    show k0 :: dkeys (upsert k v rest) = (k0 :: dkeys rest) ++ [k]
    rw [ih hrest]
    rfl

theorem mem_dkeys_upsert (k : Option Int) (v : Term) (d : TermDict) :
    k ∈ dkeys (upsert k v d) := by
  by_cases h : k ∈ dkeys d
  · rw [dkeys_upsert_mem k v d h]; exact h
  · rw [dkeys_upsert_not_mem k v d h]; simp

theorem mem_dkeys_upsert_of_mem (k k' : Option Int) (v : Term) (d : TermDict)
    (h : k' ∈ dkeys d) : k' ∈ dkeys (upsert k v d) := by
  by_cases hm : k ∈ dkeys d
  · rw [dkeys_upsert_mem k v d hm]; exact h
  · rw [dkeys_upsert_not_mem k v d hm]; exact List.mem_append_left _ h

theorem nodup_dkeys_upsert (k : Option Int) (v : Term) (d : TermDict)
    (h : (dkeys d).Nodup) : (dkeys (upsert k v d)).Nodup := by
  by_cases hm : k ∈ dkeys d
  · rw [dkeys_upsert_mem k v d hm]; exact h
  · rw [dkeys_upsert_not_mem k v d hm]
    simp only [List.nodup_append, List.nodup_cons, List.not_mem_nil, not_false_iff,
      List.nodup_nil, true_and, and_true]
    exact ⟨h, by intro a ha hb; simp at hb; subst hb; exact hm ha⟩

theorem mem_upsert (k : Option Int) (v : Term) (d : TermDict) (e : Option Int × Term)
    (h : e ∈ upsert k v d) : e = (k, v) ∨ e ∈ d := by
  induction d with
  | nil => simpa [upsert] using h
  | cons e0 rest ih =>
    obtain ⟨k0, v0⟩ := e0
    by_cases he : k0 = k
    · rw [upsert, if_pos he] at h
      rcases List.mem_cons.1 h with h0 | h0
      · left; rw [h0, he]
      · right; exact List.mem_cons_of_mem _ h0
    · rw [upsert, if_neg he] at h
      rcases List.mem_cons.1 h with h0 | h0
      · right; rw [h0]; exact List.mem_cons_self _ _
      · rcases ih h0 with h1 | h1
        · left; exact h1
        · right; exact List.mem_cons_of_mem _ h1

theorem dlookup_some_mem (k : Option Int) (w : Term) (d : TermDict)
    (h : dlookup k d = some w) : (k, w) ∈ d := by
  induction d with
  | nil => cases h
  | cons e rest ih =>
    obtain ⟨k0, v0⟩ := e
    rw [dlookup] at h
    by_cases he : k0 = k
    · rw [if_pos he] at h
      cases h
      subst he
      exact List.mem_cons_self _ _
    · rw [if_neg he] at h
      exact List.mem_cons_of_mem _ (ih h)

theorem dlookup_some_mem_dkeys (k : Option Int) (w : Term) (d : TermDict)
    (h : dlookup k d = some w) : k ∈ dkeys d := by
  have := dlookup_some_mem k w d h
  exact List.mem_map_of_mem Prod.fst this

theorem mem_dlookup_of_nodup (k : Option Int) (w : Term) (d : TermDict)
    (hnd : (dkeys d).Nodup) (h : (k, w) ∈ d) : dlookup k d = some w := by
  induction d with
  | nil => cases h
  | cons e rest ih =>
    obtain ⟨k0, v0⟩ := e
    rcases List.mem_cons.1 h with h0 | h0
    · cases h0
      rw [dlookup, if_pos rfl]
    · have hk : k ∈ dkeys rest := List.mem_map_of_mem Prod.fst h0
      have hne : k0 ≠ k := by
        intro hx
        subst hx
        exact (List.nodup_cons.1 hnd).1 hk
      rw [dlookup, if_neg hne]
      exact ih (List.nodup_cons.1 hnd).2 h0

/-- The value stored by the last binding of a key in an entry list
(`none` if the key never occurs). -/
def lastEntry (k : Option Int) : TermDict → Option Term
  | [] => none
  | (k0, v0) :: rest =>
    match lastEntry k rest with
    | some w => some w
    | none => if k0 = k then some v0 else none

theorem lastEntry_none_of_not_mem (k : Option Int) (d : TermDict) (h : k ∉ dkeys d) :
    lastEntry k d = none := by
  induction d with
  | nil => rfl
  | cons e rest ih =>
    obtain ⟨k0, v0⟩ := e
    have he : k0 ≠ k := fun hx => h (by simp [dkeys, hx])
    have hrest : k ∉ dkeys rest := fun hx => h (List.mem_cons_of_mem _ hx)
    rw [lastEntry, ih hrest, if_neg he]

theorem lastEntry_some_mem (k : Option Int) (w : Term) (d : TermDict)
    (h : lastEntry k d = some w) : (k, w) ∈ d := by
  induction d with
  | nil => cases h
  | cons e rest ih =>
    obtain ⟨k0, v0⟩ := e
    rw [lastEntry] at h
    cases hr : lastEntry k rest with
    | some u =>
      rw [hr] at h
      cases h
      exact List.mem_cons_of_mem _ (ih hr)
    | none =>
      rw [hr] at h
      by_cases he : k0 = k
      · rw [if_pos he] at h
        cases h
        subst he
        exact List.mem_cons_self _ _
      · rw [if_neg he] at h
        cases h

theorem lastEntry_eq_dlookup_of_nodup (k : Option Int) (d : TermDict)
    (hnd : (dkeys d).Nodup) : lastEntry k d = dlookup k d := by
  induction d with
  | nil => rfl
  | cons e rest ih =>
    obtain ⟨k0, v0⟩ := e
    have ihr := ih (List.nodup_cons.1 hnd).2
    rw [lastEntry, dlookup, ihr]
    cases hr : dlookup k rest with
    | some u =>
      have hk : k ∈ dkeys rest := dlookup_some_mem_dkeys k u rest hr
      have hne : k0 ≠ k := by
        intro hx
        subst hx
        exact (List.nodup_cons.1 hnd).1 hk
      simp [hne]
    | none => rfl

theorem dlookup_dictMerge (a b : TermDict) (k : Option Int) :
    dlookup k (dictMerge a b) =
      match lastEntry k b with
      | some w => some w
      | none => dlookup k a := by
  induction b generalizing a with
  | nil => rfl
  | cons e rest ih =>
    obtain ⟨k0, v0⟩ := e
    have hstep : dictMerge a ((k0, v0) :: rest) = dictMerge (upsert k0 v0 a) rest := rfl
    rw [hstep, ih (upsert k0 v0 a), lastEntry]
    cases hr : lastEntry k rest with
    | some u => rfl
    | none =>
      by_cases he : k0 = k
      · subst he
        rw [if_pos rfl, dlookup_upsert_self]
      · rw [if_neg he, dlookup_upsert_other k0 k v0 a (fun hx => he hx.symm)]

theorem mem_dictMerge (a b : TermDict) (e : Option Int × Term) (h : e ∈ dictMerge a b) :
    e ∈ a ∨ e ∈ b := by
  induction b generalizing a with
  | nil => left; exact h
  | cons e0 rest ih =>
    obtain ⟨k0, v0⟩ := e0
    have hstep : dictMerge a ((k0, v0) :: rest) = dictMerge (upsert k0 v0 a) rest := rfl
    rw [hstep] at h
    rcases ih (upsert k0 v0 a) h with h1 | h1
    · rcases mem_upsert k0 v0 a e h1 with h2 | h2
      · right; rw [h2]; exact List.mem_cons_self _ _
      · left; exact h2
    · right; exact List.mem_cons_of_mem _ h1

theorem nodup_dkeys_dictMerge (a b : TermDict) (h : (dkeys a).Nodup) :
    (dkeys (dictMerge a b)).Nodup := by
  induction b generalizing a with
  | nil => exact h
  | cons e rest ih =>
    obtain ⟨k0, v0⟩ := e
    exact ih (upsert k0 v0 a) (nodup_dkeys_upsert k0 v0 a h)

theorem mem_dkeys_dictMerge_left (a b : TermDict) (k : Option Int) (h : k ∈ dkeys a) :
    k ∈ dkeys (dictMerge a b) := by
  induction b generalizing a with
  | nil => exact h
  | cons e rest ih =>
    obtain ⟨k0, v0⟩ := e
    exact ih (upsert k0 v0 a) (mem_dkeys_upsert_of_mem k0 k v0 a h)

theorem mem_dkeys_dictMerge_right (a b : TermDict) (k : Option Int) (h : k ∈ dkeys b) :
    k ∈ dkeys (dictMerge a b) := by
  induction b generalizing a with
  | nil => cases h
  | cons e rest ih =>
    obtain ⟨k0, v0⟩ := e
    rcases List.mem_cons.1 h with h0 | h0
    · subst h0
      exact mem_dkeys_dictMerge_left (upsert k v0 a) rest k (mem_dkeys_upsert k v0 a)
    · exact ih (upsert k0 v0 a) h0

/-- Two dicts with the same ordered keys, no duplicate keys, and the
same lookups are equal. -/
theorem dict_ext (d1 d2 : TermDict) (hk : dkeys d1 = dkeys d2)
    (hnd : (dkeys d1).Nodup) (hl : ∀ k, dlookup k d1 = dlookup k d2) : d1 = d2 := by
  induction d1 generalizing d2 with
  | nil =>
    cases d2 with
    | nil => rfl
    | cons e rest => cases hk
  | cons e rest ih =>
    obtain ⟨k0, v0⟩ := e
    cases d2 with
    | nil => cases hk
    | cons e2 rest2 =>
      obtain ⟨k2, v2⟩ := e2
      have hkey : k0 = k2 := by
        have := congrArg List.head? hk
        simpa [dkeys] using this
      subst hkey
      have hval : v0 = v2 := by
        have h0 := hl k0
        rw [dlookup, if_pos rfl, dlookup, if_pos rfl] at h0
        cases h0
        rfl
      subst hval
      have hkrest : dkeys rest = dkeys rest2 := by
        have := congrArg List.tail hk
        simpa [dkeys] using this
      have hnotmem : k0 ∉ dkeys rest := (List.nodup_cons.1 hnd).1
      have hlrest : ∀ k, dlookup k rest = dlookup k rest2 := by
        intro k
        by_cases he : k0 = k
        · subst he
          have h1 : dlookup k0 rest = none := by
            cases hr : dlookup k0 rest with
            | none => rfl
            | some w => exact absurd (dlookup_some_mem_dkeys k0 w rest hr) hnotmem
          have h2 : dlookup k0 rest2 = none := by
            cases hr : dlookup k0 rest2 with
            | none => rfl
            | some w =>
              have := dlookup_some_mem_dkeys k0 w rest2 hr
              rw [← hkrest] at this
              exact absurd this hnotmem
          rw [h1, h2]
        · have h0 := hl k
          rw [dlookup, if_neg he, dlookup, if_neg he] at h0
          exact h0
      rw [ih rest2 hkrest (List.nodup_cons.1 hnd).2 hlrest]

/-- Re-upserting bindings the target dict already holds restores it:
if `d'` has the same ordered keys as `d`, agrees with `d` off the keys
of `b`, every key of `b` is a key of `d`, and `d` already stores the
last value `b` assigns to each of its keys, then folding `b`'s upserts
over `d'` yields exactly `d`. -/
theorem dictMerge_restore (b : TermDict) : ∀ (d d' : TermDict),
    dkeys d' = dkeys d →
    (dkeys d).Nodup →
    (∀ k, k ∉ dkeys b → dlookup k d' = dlookup k d) →
    (∀ k, k ∈ dkeys b → k ∈ dkeys d) →
    (∀ k w, lastEntry k b = some w → dlookup k d = some w) →
    dictMerge d' b = d := by
  induction b with
  | nil =>
    intro d d' hk hnd hoff _ _
    exact dict_ext d' d hk (hk ▸ hnd) (fun k => hoff k (by simp [dkeys]))
  | cons e rest ih =>
    intro d d' hk hnd hoff hsub hlast
    obtain ⟨k0, v0⟩ := e
    have hk0d : k0 ∈ dkeys d := hsub k0 (by simp [dkeys])
    have hk0d' : k0 ∈ dkeys d' := hk ▸ hk0d
    have hstep : dictMerge d' ((k0, v0) :: rest) = dictMerge (upsert k0 v0 d') rest := rfl
    rw [hstep]
    apply ih d (upsert k0 v0 d')
    · rw [dkeys_upsert_mem k0 v0 d' hk0d', hk]
    · exact hnd
    · intro k hkr
      by_cases he : k = k0
      · subst he
        rw [dlookup_upsert_self]
        have hle : lastEntry k ((k, v0) :: rest) = some v0 := by
          rw [lastEntry, lastEntry_none_of_not_mem k rest hkr]
          simp
        exact (hlast k v0 hle).symm
      · rw [dlookup_upsert_other k0 k v0 d' he]
        exact hoff k (by
          intro hx
          rcases List.mem_cons.1 hx with h0 | h0
          · exact he h0
          · exact hkr h0)
    · intro k hkr
      exact hsub k (List.mem_cons_of_mem _ hkr)
    · intro k w hle
      apply hlast k w
      rw [lastEntry, hle]

/-- Map a function over the values of a dict, keeping the keys. -/
def mapVals (f : Term → Term) (d : TermDict) : TermDict :=
  d.map (fun e => (e.1, f e.2))

theorem dkeys_mapVals (f : Term → Term) (d : TermDict) : dkeys (mapVals f d) = dkeys d := by
  induction d with
  | nil => rfl
  | cons e rest ih =>
    simp only [mapVals, dkeys, List.map_cons] at ih ⊢
    rw [ih]

theorem dvalues_mapVals (f : Term → Term) (d : TermDict) :
    dvalues (mapVals f d) = (dvalues d).map f := by
  induction d with
  | nil => rfl
  | cons e rest ih =>
    simp only [mapVals, dvalues, List.map_cons] at ih ⊢
    rw [ih]

theorem dlookup_mapVals (f : Term → Term) (d : TermDict) (k : Option Int) :
    dlookup k (mapVals f d) = (dlookup k d).map f := by
  induction d with
  | nil => rfl
  | cons e rest ih =>
    obtain ⟨k0, v0⟩ := e
    show dlookup k ((k0, f v0) :: mapVals f rest) = _
    rw [dlookup, dlookup]
    by_cases he : k0 = k
    · rw [if_pos he, if_pos he]
      rfl
    · rw [if_neg he, if_neg he]
      exact ih

/-- The value stored by the last term of a list whose `pyKey` is `k`. -/
def lastKeyed (k : Option Int) : List Term → Option Term
  | [] => none
  | t :: rest =>
    match lastKeyed k rest with
    | some w => some w
    | none => if pyKey t = k then some t else none

theorem lastKeyed_none_of_forall (k : Option Int) (ts : List Term)
    (h : ∀ t ∈ ts, pyKey t ≠ k) : lastKeyed k ts = none := by
  induction ts with
  | nil => rfl
  | cons t rest ih =>
    rw [lastKeyed, ih (fun u hu => h u (List.mem_cons_of_mem _ hu)),
      if_neg (h t (List.mem_cons_self _ _))]

theorem dlookup_foldl_ins (k : Option Int) (ts : List Term) : ∀ d : TermDict,
    dlookup k (ts.foldl (fun d t => upsert (pyKey t) t d) d) =
      match lastKeyed k ts with
      | some w => some w
      | none => dlookup k d := by
  induction ts with
  | nil => intro d; rfl
  | cons t rest ih =>
    intro d
    rw [List.foldl_cons, ih (upsert (pyKey t) t d), lastKeyed]
    cases hr : lastKeyed k rest with
    | some u => rfl
    | none =>
      by_cases he : pyKey t = k
      · subst he
        rw [if_pos rfl, dlookup_upsert_self]
      · rw [if_neg he, dlookup_upsert_other (pyKey t) k t d (fun hx => he hx.symm)]

theorem dlookup_toDict (k : Option Int) (ts : List Term) :
    dlookup k (toDict ts) =
      match lastKeyed k ts with
      | some w => some w
      | none => none := by
  rw [toDict, dlookup_foldl_ins k ts []]
  rfl

theorem mem_foldl_ins (ts : List Term) : ∀ (d : TermDict) (e : Option Int × Term),
    e ∈ ts.foldl (fun d t => upsert (pyKey t) t d) d →
    e ∈ d ∨ (e.2 ∈ ts ∧ e.1 = pyKey e.2) := by
  induction ts with
  | nil => intro d e h; left; exact h
  | cons t rest ih =>
    intro d e h
    rw [List.foldl_cons] at h
    rcases ih (upsert (pyKey t) t d) e h with h1 | h1
    · rcases mem_upsert (pyKey t) t d e h1 with h2 | h2
      · right
        rw [h2]
        exact ⟨List.mem_cons_self _ _, rfl⟩
      · left; exact h2
    · right; exact ⟨List.mem_cons_of_mem _ h1.1, h1.2⟩

theorem mem_toDict (ts : List Term) (e : Option Int × Term) (h : e ∈ toDict ts) :
    e.2 ∈ ts ∧ e.1 = pyKey e.2 := by
  rcases mem_foldl_ins ts [] e h with h1 | h1
  · cases h1
  · exact h1

theorem nodup_dkeys_foldl_ins (ts : List Term) : ∀ d : TermDict,
    (dkeys d).Nodup → (dkeys (ts.foldl (fun d t => upsert (pyKey t) t d) d)).Nodup := by
  induction ts with
  | nil => intro d h; exact h
  | cons t rest ih =>
    intro d h
    rw [List.foldl_cons]
    exact ih (upsert (pyKey t) t d) (nodup_dkeys_upsert (pyKey t) t d h)

theorem nodup_dkeys_toDict (ts : List Term) : (dkeys (toDict ts)).Nodup :=
  nodup_dkeys_foldl_ins ts [] (by simp [dkeys])

/-- A successful `remoteKey` is the `pyKey` of a record whose `id`
field is present. -/
theorem remoteKey_ok (t : Term) (k : Option Int) (h : remoteKey t = .ok k) :
    k = pyKey t ∧ t.id ≠ OptField.absent := by
  cases hid : t.id with
  | absent => rw [remoteKey, hid] at h; cases h
  | null =>
    rw [remoteKey, hid] at h
    cases h
    exact ⟨by rw [pyKey, hid], by intro hx; cases hx⟩
  | val v =>
    rw [remoteKey, hid] at h
    cases h
    exact ⟨by rw [pyKey, hid], by intro hx; cases hx⟩

theorem remoteDictAux_mem (ts : List Term) : ∀ (d rd : TermDict),
    remoteDictAux d ts = .ok rd →
    ∀ e ∈ rd, e ∈ d ∨ (e.2 ∈ ts ∧ e.1 = pyKey e.2 ∧ e.2.id ≠ OptField.absent) := by
  induction ts with
  | nil =>
    intro d rd h e he
    cases h
    left; exact he
  | cons t rest ih =>
    intro d rd h e he
    rw [remoteDictAux] at h
    cases hk : remoteKey t with
    | error msg => rw [hk] at h; cases h
    | ok k =>
      rw [hk] at h
      simp only [Bind.bind, Except.bind, pure] at h
      rcases ih (upsert k t d) rd h e he with h1 | h1
      · rcases mem_upsert k t d e h1 with h2 | h2
        · right
          rw [h2]
          have := remoteKey_ok t k hk
          exact ⟨List.mem_cons_self _ _, this.1, this.2⟩
        · left; exact h2
      · right; exact ⟨List.mem_cons_of_mem _ h1.1, h1.2⟩

theorem remoteDictAux_nodup (ts : List Term) : ∀ (d rd : TermDict),
    (dkeys d).Nodup → remoteDictAux d ts = .ok rd → (dkeys rd).Nodup := by
  induction ts with
  | nil =>
    intro d rd hnd h
    cases h
    exact hnd
  | cons t rest ih =>
    intro d rd hnd h
    rw [remoteDictAux] at h
    cases hk : remoteKey t with
    | error msg => rw [hk] at h; cases h
    | ok k =>
      rw [hk] at h
      simp only [Bind.bind, Except.bind, pure] at h
      exact ih (upsert k t d) rd (nodup_dkeys_upsert k t d hnd) h

theorem remoteDictAux_lookup_frozen (ts : List Term) (k : Option Int) : ∀ (d rd : TermDict),
    (∀ t ∈ ts, pyKey t ≠ k) → remoteDictAux d ts = .ok rd →
    dlookup k rd = dlookup k d := by
  induction ts with
  | nil =>
    intro d rd _ h
    cases h
    rfl
  | cons t rest ih =>
    intro d rd hne h
    rw [remoteDictAux] at h
    cases hk : remoteKey t with
    | error msg => rw [hk] at h; cases h
    | ok k0 =>
      rw [hk] at h
      simp only [Bind.bind, Except.bind, pure] at h
      have hk0 : k0 ≠ k := by
        rw [(remoteKey_ok t k0 hk).1]
        exact hne t (List.mem_cons_self _ _)
      rw [ih (upsert k0 t d) rd (fun u hu => hne u (List.mem_cons_of_mem _ hu)) h]
      exact dlookup_upsert_other k0 k t d (fun hx => hk0 hx.symm)

/-! ### Normalization and per-term pass lemmas -/

theorem normalizeId_of_id_present (t : Term) (h : t.id ≠ OptField.absent) :
    normalizeId t = t := by
  cases hid : t.id with
  | absent => exact absurd hid h
  | null => rw [normalizeId, hid]
  | val v => rw [normalizeId, hid]

/-- Characterization of `normalizeId` on a term without the `id` key:
`term['id'] = term.get('term_id')`, then `del term['term_id']` when
present. -/
theorem normalizeId_absent (t : Term) (hid : t.id = OptField.absent) :
    normalizeId t =
      match t.term_id with
      | OptField.absent => { t with id := OptField.null }
      | OptField.null => { t with id := OptField.null, term_id := OptField.absent }
      | OptField.val v => { t with id := OptField.val v, term_id := OptField.absent } := by
  rw [normalizeId, hid]
  cases htid : t.term_id with
  | absent => simp [htid]
  | null => simp [htid]
  | val v => simp [htid]

theorem normalizeId_id_ne_absent (t : Term) : (normalizeId t).id ≠ OptField.absent := by
  by_cases hid : t.id = OptField.absent
  · rw [normalizeId_absent t hid]
    cases htid : t.term_id <;> simp
  · rw [normalizeId_of_id_present t hid]
    exact hid

theorem pyKey_normalizeId (t : Term) : pyKey (normalizeId t) = pyKey t := by
  by_cases hid : t.id = OptField.absent
  · rw [normalizeId_absent t hid]
    cases htid : t.term_id <;> simp [pyKey, hid, htid]
  · rw [normalizeId_of_id_present t hid]

theorem normalizeId_idem (t : Term) : normalizeId (normalizeId t) = normalizeId t :=
  normalizeId_of_id_present (normalizeId t) (normalizeId_id_ne_absent t)

theorem normalizeId_id_val_iff (t : Term) (v : Int) :
    (normalizeId t).id = OptField.val v ↔ pyKey t = some v := by
  by_cases hid : t.id = OptField.absent
  · rw [normalizeId_absent t hid]
    cases htid : t.term_id <;> simp [pyKey, hid, htid]
  · rw [normalizeId_of_id_present t hid]
    cases hid2 : t.id with
    | absent => exact absurd hid2 hid
    | null => simp [pyKey, hid2]
    | val w => simp [pyKey, hid2]

theorem normalizeId_term_id_absent_of_legacy (t : Term) (v : Int)
    (hid : t.id = OptField.absent) (hleg : t.term_id = OptField.val v) :
    (normalizeId t).term_id = OptField.absent ∧ (normalizeId t).id = OptField.val v := by
  rw [normalizeId_absent t hid, hleg]
  exact ⟨rfl, rfl⟩

theorem normalizeId_translation (t : Term) : (normalizeId t).translation = t.translation := by
  by_cases hid : t.id = OptField.absent
  · rw [normalizeId_absent t hid]
    cases htid : t.term_id <;> rfl
  · rw [normalizeId_of_id_present t hid]

theorem normalizeId_context (t : Term) : (normalizeId t).context = t.context := by
  by_cases hid : t.id = OptField.absent
  · rw [normalizeId_absent t hid]
    cases htid : t.term_id <;> rfl
  · rw [normalizeId_of_id_present t hid]

theorem normalizeId_extra (t : Term) : (normalizeId t).extra = t.extra := by
  by_cases hid : t.id = OptField.absent
  · rw [normalizeId_absent t hid]
    cases htid : t.term_id <;> rfl
  · rw [normalizeId_of_id_present t hid]

theorem normalizeId_history (t : Term) : (normalizeId t).history = t.history := by
  by_cases hid : t.id = OptField.absent
  · rw [normalizeId_absent t hid]
    cases htid : t.term_id <;> rfl
  · rw [normalizeId_of_id_present t hid]

theorem processTerm_of_attached_nil (cache : List (Int × List StoredEntry)) (t : Term)
    (h : attachedHistory cache (normalizeId t) = []) : processTerm cache t = normalizeId t := by
  rw [processTerm, h]

/-- The stored history list of a term (`[]` when the field is null or
absent). -/
def storedHist (t : Term) : List StoredEntry :=
  match t.history with
  | .val l => l
  | _ => []

theorem processTerm_of_attached_cons (cache : List (Int × List StoredEntry)) (t : Term)
    (e : StoredEntry) (es : List StoredEntry)
    (h : attachedHistory cache (normalizeId t) = e :: es) :
    processTerm cache t =
      { normalizeId t with
          history := OptField.val ((e :: es) ++ storedHist (normalizeId t))
          last_modified := OptField.val e.created_at
          current_version := OptField.val ((e :: es) ++ storedHist (normalizeId t)).length } := by
  rw [processTerm, h]
  cases hh : (normalizeId t).history with
  | val l =>
    cases hl : l.isEmpty
    · simp only [hl, Bool.false_eq_true, if_false, storedHist, hh]
    · have : l = [] := List.isEmpty_iff.1 hl
      subst this
      simp only [hl, if_true, storedHist, hh, List.append_nil]
  | null => simp only [storedHist, hh, List.append_nil]
  | absent => simp only [storedHist, hh, List.append_nil]

theorem processTerm_id (cache : List (Int × List StoredEntry)) (t : Term) :
    (processTerm cache t).id = (normalizeId t).id := by
  rw [processTerm]
  cases h : attachedHistory cache (normalizeId t) with
  | nil => rfl
  | cons e es =>
    cases hh : (normalizeId t).history <;> simp

theorem processTerm_term_id (cache : List (Int × List StoredEntry)) (t : Term) :
    (processTerm cache t).term_id = (normalizeId t).term_id := by
  rw [processTerm]
  cases h : attachedHistory cache (normalizeId t) with
  | nil => rfl
  | cons e es =>
    cases hh : (normalizeId t).history <;> simp

theorem processTerm_translation (cache : List (Int × List StoredEntry)) (t : Term) :
    (processTerm cache t).translation = t.translation := by
  rw [processTerm]
  cases h : attachedHistory cache (normalizeId t) with
  | nil => exact normalizeId_translation t
  | cons e es =>
    cases hh : (normalizeId t).history <;> simp [normalizeId_translation t]

theorem processTerm_context (cache : List (Int × List StoredEntry)) (t : Term) :
    (processTerm cache t).context = t.context := by
  rw [processTerm]
  cases h : attachedHistory cache (normalizeId t) with
  | nil => exact normalizeId_context t
  | cons e es =>
    cases hh : (normalizeId t).history <;> simp [normalizeId_context t]

theorem processTerm_extra (cache : List (Int × List StoredEntry)) (t : Term) :
    (processTerm cache t).extra = t.extra := by
  rw [processTerm]
  cases h : attachedHistory cache (normalizeId t) with
  | nil => exact normalizeId_extra t
  | cons e es =>
    cases hh : (normalizeId t).history <;> simp [normalizeId_extra t]

theorem attachedHistory_nil_cache (t : Term) : attachedHistory [] t = [] := by
  rw [attachedHistory]
  cases t.id with
  | absent => rfl
  | null => rfl
  | val v => simp [List.lookup]

theorem buildCache_const_of_no_new (ld : TermDict)
    (histories : Int → Except String HistoryPayload) (q : Option String)
    (hno : ∀ v : Int, computeNewHistory ld histories q v = []) :
    ∀ (ids : List Int) (cache : List (Int × List StoredEntry)),
      buildCache ld histories q ids cache = cache := by
  intro ids
  induction ids with
  | nil => intro cache; rfl
  | cons v rest ih =>
    intro cache
    rw [buildCache]
    cases hs : (cache.lookup v).isSome
    · simp only [hs, Bool.false_eq_true, if_false, hno v, List.isEmpty_nil, if_true]
      exact ih cache
    · simp only [hs, if_true]
      exact ih cache

theorem foldl_ins_frozen (ts : List Term) (k0 : Option Int) (w : Term)
    (h : ∀ t ∈ ts, pyKey t ≠ k0) : ∀ d : TermDict,
    ts.foldl (fun d t => upsert (pyKey t) t d) ((k0, w) :: d) =
      (k0, w) :: ts.foldl (fun d t => upsert (pyKey t) t d) d := by
  induction ts with
  | nil => intro d; rfl
  | cons t rest ih =>
    intro d
    rw [List.foldl_cons, List.foldl_cons]
    have hne : k0 ≠ pyKey t := fun hx => h t (List.mem_cons_self _ _) hx.symm
    have hstep : upsert (pyKey t) t ((k0, w) :: d) = (k0, w) :: upsert (pyKey t) t d := by
      rw [upsert, if_neg hne]
    rw [hstep]
    exact ih (fun u hu => h u (List.mem_cons_of_mem _ hu)) (upsert (pyKey t) t d)

/-- Rebuilding a dict from its (rekeyed-value-preserving) mapped values
gives the value-mapped dict: the values of a dict with consistent,
duplicate-free keys round-trip through `toDict`. -/
theorem toDict_values_mapVals (f : Term → Term) (hf : ∀ t, pyKey (f t) = pyKey t) :
    ∀ d : TermDict, (∀ e ∈ d, e.1 = pyKey e.2) → (dkeys d).Nodup →
    toDict ((dvalues d).map f) = mapVals f d := by
  intro d
  induction d with
  | nil => intro _ _; rfl
  | cons e rest ih =>
    intro hcons hnd
    obtain ⟨k, u⟩ := e
    have hku : k = pyKey u := hcons (k, u) (List.mem_cons_self _ _)
    have hrest_cons : ∀ e ∈ rest, e.1 = pyKey e.2 :=
      fun e he => hcons e (List.mem_cons_of_mem _ he)
    have hnd_rest : (dkeys rest).Nodup := (List.nodup_cons.1 hnd).2
    have hknotin : k ∉ dkeys rest := (List.nodup_cons.1 hnd).1
    have hvals : ∀ t ∈ (dvalues rest).map f, pyKey t ≠ k := by
      intro t ht
      rcases List.mem_map.1 ht with ⟨u0, hu0, rfl⟩
      rcases List.mem_map.1 hu0 with ⟨e0, he0, rfl⟩
      rw [hf e0.2, ← hrest_cons e0 he0]
      intro hx
      exact hknotin (hx ▸ List.mem_map_of_mem Prod.fst he0)
    show toDict (f u :: (dvalues rest).map f) = (k, f u) :: mapVals f rest
    have h1 : toDict (f u :: (dvalues rest).map f) =
        ((dvalues rest).map f).foldl (fun d t => upsert (pyKey t) t d) [(pyKey (f u), f u)] := rfl
    rw [h1, hf u, ← hku, foldl_ins_frozen ((dvalues rest).map f) k (f u) hvals []]
    rw [show ((dvalues rest).map f).foldl (fun d t => upsert (pyKey t) t d) [] =
      toDict ((dvalues rest).map f) from rfl]
    rw [ih hrest_cons hnd_rest]

/-- The history cache built by a run of `merge_terms`. -/
def mergeCache (histories : Int → Except String HistoryPayload) (q : Option String)
    (local_terms : List Term) (md : TermDict) : List (Int × List StoredEntry) :=
  buildCache (toDict local_terms) histories q (termIds (dvalues md)) []

/-- The length of a `history` field (`0` when null or absent). -/
def histLen : OptField (List StoredEntry) → Nat
  | .val l => l.length
  | _ => 0

/-- Unfolding of a successful `merge_terms` run through its merged
dict. -/
theorem merge_terms_ok_decomp (histories : Int → Except String HistoryPayload)
    (q : Option String) (L R : List Term) (md : TermDict)
    (h : mergedDict L R = .ok md) :
    merge_terms histories L R q =
      .ok ((dvalues md).map (processTerm (mergeCache histories q L md))) := by
  rw [merge_terms, h]
  rfl

/-- Structure of a successful `mergedDict`: the union dict is the
remote dict's entries upserted over the local dict, its entries are
keyed by the `pyKey` of their value, its keys are duplicate-free, and
the remote entries all carry a present `id` field. -/
theorem mergedDict_props (L R : List Term) (md : TermDict) (h : mergedDict L R = .ok md) :
    (∀ e ∈ md, e.1 = pyKey e.2) ∧ (dkeys md).Nodup ∧
      ∃ rd, remoteDictAux [] R = .ok rd ∧ md = dictMerge (toDict L) rd ∧
        (∀ e ∈ rd, e.2 ∈ R ∧ e.1 = pyKey e.2 ∧ e.2.id ≠ OptField.absent) ∧
        (dkeys rd).Nodup := by
  rw [mergedDict] at h
  cases hr : remoteDictAux [] R with
  | error e => rw [hr] at h; cases h
  | ok rd =>
    rw [hr] at h
    simp only [Bind.bind, Except.bind, pure] at h
    cases h
    have hrd_mem : ∀ e ∈ rd, e.2 ∈ R ∧ e.1 = pyKey e.2 ∧ e.2.id ≠ OptField.absent := by
      intro e he
      rcases remoteDictAux_mem R [] rd hr e he with h1 | h1
      · cases h1
      · exact h1
    have hrd_nodup : (dkeys rd).Nodup := remoteDictAux_nodup R [] rd (by simp [dkeys]) hr
    refine ⟨?_, ?_, rd, rfl, rfl, hrd_mem, hrd_nodup⟩
    · intro e he
      rcases mem_dictMerge (toDict L) rd e he with h1 | h1
      · exact (mem_toDict L e h1).2
      · exact (hrd_mem e h1).2.1
    · exact nodup_dkeys_dictMerge (toDict L) rd (nodup_dkeys_toDict L)

/-! ### Claims about the merge engine -/

/-- A history oracle that returns an empty history array for every
term. -/
def historiesEmpty : Int → Except String HistoryPayload := fun _ => .ok (.arr [])

/-- A stored history entry from an earlier sync (timestamp 4). -/
def storedEntryOld : StoredEntry :=
  { version := 1, created_at := 4, user := "u", action := "update"
    changes := { translation := some "x", context := none }, diff := none }

/-- A local term whose stored `current_version` (5) disagrees with its
stored history length (1). -/
def termMismatched : Term :=
  { id := .val 1, term_id := .absent, translation := some "A", context := none
    history := .val [storedEntryOld], last_modified := .val 10
    current_version := .val 5, extra := [] }

/-- C2, counterexample.  The claim asserts `current_version` equals the
history length for EVERY merged term, including one whose incremental
fetch found nothing but whose stored fields disagreed.  Merging
`termMismatched` (stored `current_version` 5, stored history length 1)
with an empty remote collection and no new history returns the term
unchanged: its `current_version` is still 5 ≠ 1, because the code only
recomputes `current_version` inside the `if history:` branch. -/
theorem C2_counterexample :
    merge_terms historiesEmpty [termMismatched] [] none = Except.ok [termMismatched] ∧
      termMismatched.current_version = OptField.val 5 ∧
      histLen termMismatched.history = 1 ∧
      termMismatched.current_version ≠ OptField.val (histLen termMismatched.history) :=
  ⟨rfl, rfl, rfl, by decide⟩

/-- C2, amended.  After a merge, `current_version` equals the length of
`history` for every term to which the run attached new history entries;
a term whose incremental fetch yielded nothing is returned unchanged
(apart from identifier normalization), so a pre-existing mismatch
between its stored `current_version` and its stored history length
persists. -/
theorem C2_version_recomputed_only_when_updated
    (histories : Int → Except String HistoryPayload) (q : Option String)
    (L R : List Term) (md : TermDict) (h : mergedDict L R = .ok md) :
    merge_terms histories L R q =
        .ok ((dvalues md).map (processTerm (mergeCache histories q L md))) ∧
      ∀ t ∈ dvalues md,
        (attachedHistory (mergeCache histories q L md) (normalizeId t) ≠ [] →
          (processTerm (mergeCache histories q L md) t).current_version =
            OptField.val (histLen (processTerm (mergeCache histories q L md) t).history)) ∧
        (attachedHistory (mergeCache histories q L md) (normalizeId t) = [] →
          processTerm (mergeCache histories q L md) t = normalizeId t) := by
  refine ⟨merge_terms_ok_decomp histories q L R md h, ?_⟩
  intro t _
  constructor
  · intro hne
    cases hc : attachedHistory (mergeCache histories q L md) (normalizeId t) with
    | nil => exact absurd hc hne
    | cons e es =>
      rw [processTerm_of_attached_cons _ t e es hc]
      rfl
  · exact processTerm_of_attached_nil _ t

/-- Raw history entry at timestamp 6 (oldest of the new batch). -/
def rawEntrySix : RawHistoryEntry :=
  { created_at := 6, user := "alice", action := "update"
    translation := some "t6", context := none }

/-- Raw history entry at timestamp 7 (newest of the new batch). -/
def rawEntrySeven : RawHistoryEntry :=
  { created_at := 7, user := "bob", action := "update"
    translation := some "t7", context := none }

/-- A history oracle returning two new entries (oldest first, as the
API delivers them) for term 1 and nothing for any other term. -/
def historiesTwoNew : Int → Except String HistoryPayload :=
  fun v => if v = 1 then .ok (.arr [rawEntrySix, rawEntrySeven]) else .ok (.arr [])

/-- A local term with one stored entry and watermark `last_modified = 5`. -/
def termWatermarked : Term :=
  { id := .val 1, term_id := .absent, translation := some "X", context := none
    history := .val [storedEntryOld], last_modified := .val 5
    current_version := .val 1, extra := [] }

/-- The merged dict of `[termWatermarked]` against an empty remote. -/
def mdWatermarked : TermDict := [(some 1, termWatermarked)]

set_option maxRecDepth 4000 in
/-- C2, witness for `C2_version_recomputed_only_when_updated`: for the
concrete run in which term 1 receives two new history entries, the
merged term's `current_version` equals its history length. -/
theorem C2_version_recomputed_only_when_updated_witness :
    (processTerm (mergeCache historiesTwoNew none [termWatermarked] mdWatermarked)
        termWatermarked).current_version =
      OptField.val (histLen
        (processTerm (mergeCache historiesTwoNew none [termWatermarked] mdWatermarked)
          termWatermarked).history) := by
  have h := C2_version_recomputed_only_when_updated historiesTwoNew none
    [termWatermarked] [] mdWatermarked rfl
  exact (h.2 termWatermarked (by decide)).1 (by decide)

/-- The pruned stored entry built from `rawEntrySix` (first of the
fetched batch, so version 1 and no previous values). -/
def storedEntrySix : StoredEntry :=
  toStoredEntry 0 { entry := rawEntrySix, old_translation := none, old_context := none }

/-- The pruned stored entry built from `rawEntrySeven` (second of the
fetched batch). -/
def storedEntrySeven : StoredEntry :=
  toStoredEntry 1 { entry := rawEntrySeven, old_translation := some "t6", old_context := none }

/-- The merged form of `termWatermarked` under `historiesTwoNew`. -/
def termWatermarkedMerged : Term :=
  { termWatermarked with
      history := OptField.val [storedEntrySix, storedEntrySeven, storedEntryOld]
      last_modified := OptField.val 6
      current_version := OptField.val 3 }

set_option maxRecDepth 4000 in
/-- C3, counterexample.  The claim asserts the new entries sit at the
head in most-recent-first order and that `last_modified` becomes the
NEWEST new entry's timestamp (7).  Fetching the new entries `[6, 7]`
(oldest first) for `termWatermarked` instead prepends them in fetch
order — `[6, 7]` ascending, not `[7, 6]` — and sets `last_modified` to
`history[0]['created_at'] = 6`, the OLDEST new entry's timestamp. -/
theorem C3_counterexample :
    merge_terms historiesTwoNew [termWatermarked] [] none =
        Except.ok [termWatermarkedMerged] ∧
      storedEntrySix.created_at = 6 ∧
      storedEntrySeven.created_at = 7 ∧
      termWatermarkedMerged.history =
        OptField.val [storedEntrySix, storedEntrySeven, storedEntryOld] ∧
      termWatermarkedMerged.last_modified = OptField.val 6 ∧
      termWatermarkedMerged.last_modified ≠ OptField.val storedEntrySeven.created_at :=
  ⟨rfl, rfl, rfl, rfl, rfl, by decide⟩

/-- C3, amended.  When the merge finds new history entries for a term
(fetched oldest-first and filtered to those strictly after the stored
watermark), it prepends them to the previously stored entries keeping
their fetch order — so the new block at the head is oldest-first, not
most-recent-first — and sets `last_modified` to the FIRST fetched new
entry's `created_at`, the oldest of the batch rather than the newest. -/
theorem C3_history_prepended_in_fetch_order
    (histories : Int → Except String HistoryPayload) (q : Option String)
    (L R : List Term) (md : TermDict) (h : mergedDict L R = .ok md) :
    merge_terms histories L R q =
        .ok ((dvalues md).map (processTerm (mergeCache histories q L md))) ∧
      ∀ t ∈ dvalues md, ∀ e es,
        attachedHistory (mergeCache histories q L md) (normalizeId t) = e :: es →
        (processTerm (mergeCache histories q L md) t).history =
            OptField.val ((e :: es) ++ storedHist (normalizeId t)) ∧
          (processTerm (mergeCache histories q L md) t).last_modified =
            OptField.val e.created_at := by
  refine ⟨merge_terms_ok_decomp histories q L R md h, ?_⟩
  intro t _ e es hc
  rw [processTerm_of_attached_cons _ t e es hc]
  exact ⟨rfl, rfl⟩

set_option maxRecDepth 4000 in
/-- C3, witness for `C3_history_prepended_in_fetch_order` at the
concrete run: the merged history is the fetched block `[6, 7]` followed
by the stored entry, and `last_modified` is 6. -/
theorem C3_history_prepended_in_fetch_order_witness :
    (processTerm (mergeCache historiesTwoNew none [termWatermarked] mdWatermarked)
          termWatermarked).history =
        OptField.val ([storedEntrySix, storedEntrySeven] ++
          storedHist (normalizeId termWatermarked)) ∧
      (processTerm (mergeCache historiesTwoNew none [termWatermarked] mdWatermarked)
          termWatermarked).last_modified = OptField.val storedEntrySix.created_at := by
  have h := C3_history_prepended_in_fetch_order historiesTwoNew none
    [termWatermarked] [] mdWatermarked rfl
  exact h.2 termWatermarked (by decide) storedEntrySix [storedEntrySeven] (by decide)

/-- Inversion of a successful `merge_terms` run. -/
theorem merge_terms_ok_inv (histories : Int → Except String HistoryPayload)
    (q : Option String) (L R out : List Term)
    (h : merge_terms histories L R q = .ok out) :
    ∃ md, mergedDict L R = .ok md ∧
      out = (dvalues md).map (processTerm (mergeCache histories q L md)) := by
  cases hmd : mergedDict L R with
  | error e =>
    rw [merge_terms, hmd] at h
    simp only [Bind.bind, Except.bind] at h
    cases h
  | ok md =>
    have hdec := merge_terms_ok_decomp histories q L R md hmd
    rw [hdec] at h
    cases h
    exact ⟨md, rfl, rfl⟩

/-- C4 (confirmed).  For an id present in both the local and the remote
dict, the merged output contains a term carrying the REMOTE record's
content fields — `translation`, `context`, every other untouched field
(`extra`) and the `id` itself — not the local record's. -/
theorem C4_remote_precedence (histories : Int → Except String HistoryPayload)
    (q : Option String) (L R : List Term) (rd : TermDict) (out : List Term)
    (i : Int) (lt rt : Term)
    (hrd : remoteDictAux [] R = .ok rd)
    (hloc : dlookup (some i) (toDict L) = some lt)
    (hrem : dlookup (some i) rd = some rt)
    (hmerge : merge_terms histories L R q = .ok out) :
    ∃ u ∈ out, u.translation = rt.translation ∧ u.context = rt.context ∧
      u.extra = rt.extra ∧ u.id = rt.id := by
  obtain ⟨md, hmd, hout⟩ := merge_terms_ok_inv histories q L R out hmerge
  have hmd2 : mergedDict L R = .ok (dictMerge (toDict L) rd) := by
    rw [mergedDict, hrd]
    rfl
  have hmdeq : md = dictMerge (toDict L) rd := by
    rw [hmd] at hmd2
    cases hmd2
    rfl
  have hrd_nodup : (dkeys rd).Nodup := remoteDictAux_nodup R [] rd (by simp [dkeys]) hrd
  have hlook : dlookup (some i) md = some rt := by
    rw [hmdeq, dlookup_dictMerge, lastEntry_eq_dlookup_of_nodup (some i) rd hrd_nodup, hrem]
  have hmem : (some i, rt) ∈ md := dlookup_some_mem (some i) rt md hlook
  have hval : rt ∈ dvalues md := List.mem_map_of_mem Prod.snd hmem
  have hid_present : rt.id ≠ OptField.absent := by
    have hmem_rd : (some i, rt) ∈ rd := dlookup_some_mem (some i) rt rd hrem
    rcases remoteDictAux_mem R [] rd hrd (some i, rt) hmem_rd with h1 | h1
    · cases h1
    · exact h1.2.2
  refine ⟨processTerm (mergeCache histories q L md) rt, ?_, ?_, ?_, ?_, ?_⟩
  · rw [hout]
    exact List.mem_map_of_mem _ hval
  · exact processTerm_translation _ rt
  · exact processTerm_context _ rt
  · exact processTerm_extra _ rt
  · rw [processTerm_id, normalizeId_of_id_present rt hid_present]

/-- A local term whose `translation` is "A" under id 1. -/
def termLocalA : Term :=
  { id := .val 1, term_id := .absent, translation := some "A", context := none
    history := .absent, last_modified := .absent, current_version := .absent, extra := [] }

/-- A remote term with the same id 1 whose `translation` is "B". -/
def termRemoteB : Term :=
  { id := .val 1, term_id := .absent, translation := some "B", context := none
    history := .absent, last_modified := .absent, current_version := .absent, extra := [] }

/-- C4, witness for `C4_remote_precedence`: merging local
`{id: 1, translation: "A"}` with remote `{id: 1, translation: "B"}`
yields a term whose translation is the remote "B". -/
theorem C4_remote_precedence_witness :
    termLocalA.translation = some "A" ∧ termRemoteB.translation = some "B" ∧
      ∃ u ∈ [termRemoteB], u.translation = termRemoteB.translation ∧
        u.context = termRemoteB.context ∧ u.extra = termRemoteB.extra ∧
        u.id = termRemoteB.id :=
  ⟨rfl, rfl,
    C4_remote_precedence historiesEmpty none [termLocalA] [termRemoteB]
      [(some 1, termRemoteB)] [termRemoteB] 1 termLocalA termRemoteB rfl rfl rfl rfl⟩

theorem lastKeyed_append_unique (post : List Term) (t : Term) (k : Option Int)
    (hk : pyKey t = k) (hpost : ∀ u ∈ post, pyKey u ≠ k) : ∀ pre : List Term,
    (∀ u ∈ pre, pyKey u ≠ k) → lastKeyed k (pre ++ t :: post) = some t := by
  intro pre
  induction pre with
  | nil =>
    intro _
    rw [List.nil_append, lastKeyed, lastKeyed_none_of_forall k post hpost, if_pos hk]
  | cons p rest ih =>
    intro hpre
    rw [List.cons_append, lastKeyed, ih (fun u hu => hpre u (List.mem_cons_of_mem _ hu))]

theorem countP_fst_eq_one (k : Option Int) : ∀ d : TermDict, (dkeys d).Nodup →
    k ∈ dkeys d → d.countP (fun e => decide (e.1 = k)) = 1 := by
  intro d
  induction d with
  | nil => intro _ h; cases h
  | cons e rest ih =>
    intro hnd hmem
    obtain ⟨k0, v0⟩ := e
    by_cases he : k0 = k
    · subst he
      have hnotin : k0 ∉ dkeys rest := (List.nodup_cons.1 hnd).1
      have hzero : rest.countP (fun e => decide (e.1 = k0)) = 0 := by
        rw [List.countP_eq_zero]
        intro a ha
        simp only [decide_eq_true_eq]
        intro hx
        exact hnotin (hx ▸ List.mem_map_of_mem Prod.fst ha)
      rw [List.countP_cons, hzero]
      simp
    · have hmem' : k ∈ dkeys rest := by
        rcases List.mem_cons.1 hmem with h0 | h0
        · exact absurd h0.symm he
        · exact h0
      rw [List.countP_cons, ih (List.nodup_cons.1 hnd).2 hmem']
      simp [he]

/-- C8 (confirmed).  A local term lacking the canonical `id` field but
carrying the legacy `term_id` field appears in the merge output exactly
once keyed by the canonical field — its `id` holds the legacy value —
and the legacy `term_id` field is absent from the merged record
(assuming no other input term claims the same key). -/
theorem C8_legacy_id_normalized (histories : Int → Except String HistoryPayload)
    (q : Option String) (pre post R out : List Term) (t : Term) (v : Int)
    (hid : t.id = OptField.absent) (hleg : t.term_id = OptField.val v)
    (huniq : ∀ u ∈ pre ++ post, pyKey u ≠ some v)
    (hrem : ∀ r ∈ R, pyKey r ≠ some v)
    (hmerge : merge_terms histories (pre ++ t :: post) R q = .ok out) :
    out.countP (fun u => decide (u.id = OptField.val v)) = 1 ∧
      ∀ u ∈ out, u.id = OptField.val v → u.term_id = OptField.absent := by
  obtain ⟨md, hmd, hout⟩ := merge_terms_ok_inv histories q (pre ++ t :: post) R out hmerge
  obtain ⟨hcons, hnd, rd, hrd, hmdeq, hrdmem, hrdnd⟩ := mergedDict_props _ R md hmd
  have hkey : pyKey t = some v := by rw [pyKey, hid, hleg]
  have hpre : ∀ u ∈ pre, pyKey u ≠ some v :=
    fun u hu => huniq u (List.mem_append_left _ hu)
  have hpost : ∀ u ∈ post, pyKey u ≠ some v :=
    fun u hu => huniq u (List.mem_append_right _ hu)
  have hlocal : dlookup (some v) (toDict (pre ++ t :: post)) = some t := by
    rw [dlookup_toDict, lastKeyed_append_unique post t (some v) hkey hpost pre hpre]
  have hrdnone : lastEntry (some v) rd = none := by
    apply lastEntry_none_of_not_mem
    intro hmem
    rcases List.mem_map.1 hmem with ⟨e, he, hek⟩
    exact hrem e.2 (hrdmem e he).1 (hek ▸ (hrdmem e he).2.1.symm)
  have hlook : dlookup (some v) md = some t := by
    rw [hmdeq, dlookup_dictMerge, hrdnone, hlocal]
  have hkeymem : some v ∈ dkeys md := dlookup_some_mem_dkeys (some v) t md hlook
  have hidmap : ∀ u : Term,
      (decide ((processTerm (mergeCache histories q (pre ++ t :: post) md) u).id =
        OptField.val v)) = decide (pyKey u = some v) := by
    intro u
    rw [processTerm_id]
    by_cases hx : pyKey u = some v
    · rw [decide_eq_true ((normalizeId_id_val_iff u v).2 hx), decide_eq_true hx]
    · rw [decide_eq_false (fun hc => hx ((normalizeId_id_val_iff u v).1 hc)),
        decide_eq_false hx]
  constructor
  · rw [hout, List.countP_map]
    have h1 : (dvalues md).countP
        (fun u => decide ((processTerm (mergeCache histories q (pre ++ t :: post) md) u).id =
          OptField.val v)) = (dvalues md).countP (fun u => decide (pyKey u = some v)) := by
      apply List.countP_congr
      intro u _
      show (decide ((processTerm (mergeCache histories q (pre ++ t :: post) md) u).id =
          OptField.val v) = true) ↔ (decide (pyKey u = some v) = true)
      rw [hidmap u]
    rw [show ((fun u => decide (u.id = OptField.val v)) ∘
        processTerm (mergeCache histories q (pre ++ t :: post) md)) =
        (fun u => decide ((processTerm (mergeCache histories q (pre ++ t :: post) md) u).id =
          OptField.val v)) from rfl, h1]
    rw [dvalues, List.countP_map]
    have h2 : md.countP ((fun u => decide (pyKey u = some v)) ∘ Prod.snd) =
        md.countP (fun e => decide (e.1 = some v)) := by
      apply List.countP_congr
      intro e he
      show (decide (pyKey e.2 = some v) = true) ↔ (decide (e.1 = some v) = true)
      rw [← hcons e he]
    rw [h2]
    exact countP_fst_eq_one (some v) md hnd hkeymem
  · intro u hu huid
    rw [hout] at hu
    rcases List.mem_map.1 hu with ⟨w, hw, rfl⟩
    have hwkey : pyKey w = some v := by
      rw [processTerm_id] at huid
      exact (normalizeId_id_val_iff w v).1 huid
    rcases List.mem_map.1 hw with ⟨e, he, rfl⟩
    have hekey : e.1 = some v := by rw [hcons e he, hwkey]
    have hlook2 : dlookup (some v) md = some e.2 :=
      mem_dlookup_of_nodup (some v) e.2 md hnd (by rw [← hekey]; exact he)
    have hwt : e.2 = t := by
      rw [hlook2] at hlook
      cases hlook
      rfl
    rw [processTerm_term_id, hwt]
    exact (normalizeId_term_id_absent_of_legacy t v hid hleg).1

/-- A local term carrying only the legacy identifier field. -/
def termLegacy : Term :=
  { id := .absent, term_id := .val 7, translation := some "L", context := none
    history := .absent, last_modified := .absent, current_version := .absent, extra := [] }

/-- `termLegacy` after identifier normalization. -/
def termLegacyNormalized : Term :=
  { termLegacy with id := OptField.val 7, term_id := OptField.absent }

/-- C8, witness for `C8_legacy_id_normalized`: merging `[termLegacy]`
with an empty remote yields exactly one term with `id = 7`, whose
`term_id` field is gone. -/
theorem C8_legacy_id_normalized_witness :
    merge_terms historiesEmpty [termLegacy] [] none = Except.ok [termLegacyNormalized] ∧
      [termLegacyNormalized].countP (fun u => decide (u.id = OptField.val 7)) = 1 ∧
      ∀ u ∈ [termLegacyNormalized], u.id = OptField.val 7 →
        u.term_id = OptField.absent := by
  refine ⟨rfl, ?_⟩
  exact C8_legacy_id_normalized historiesEmpty none [] [] [] [termLegacyNormalized]
    termLegacy 7 rfl rfl
    (fun u hu => absurd hu (List.not_mem_nil u))
    (fun r hr => absurd hr (List.not_mem_nil r))
    rfl

/-- C5 (confirmed).  Merging the same snapshots twice is idempotent
when the history fetch contributes nothing new: if a first run of
`merge_terms` on local `L` and remote `R` produced `M1`, and the
incremental history computed against the local watermarks is empty for
every term id in both runs (no new remote history), then re-merging
`M1` with the unchanged remote `R` returns exactly `M1` again. -/
theorem C5_merge_idempotent (histories : Int → Except String HistoryPayload)
    (q : Option String) (L R M1 : List Term)
    (h1 : merge_terms histories L R q = .ok M1)
    (hno1 : ∀ v : Int, computeNewHistory (toDict L) histories q v = [])
    (hno2 : ∀ v : Int, computeNewHistory (toDict M1) histories q v = []) :
    merge_terms histories M1 R q = .ok M1 := by
  obtain ⟨md, hmd, hout⟩ := merge_terms_ok_inv histories q L R M1 h1
  obtain ⟨hcons, hnd, rd, hrd, hmdeq, hrdmem, hrdnd⟩ := mergedDict_props L R md hmd
  have hcache1 : mergeCache histories q L md = [] :=
    buildCache_const_of_no_new (toDict L) histories q hno1 (termIds (dvalues md)) []
  have hM1 : M1 = (dvalues md).map normalizeId := by
    rw [hout, hcache1]
    exact List.map_congr_left
      (fun t _ => processTerm_of_attached_nil [] t (attachedHistory_nil_cache (normalizeId t)))
  have htd : toDict M1 = mapVals normalizeId md := by
    rw [hM1]
    exact toDict_values_mapVals normalizeId pyKey_normalizeId md hcons hnd
  have hmd2 : dictMerge (mapVals normalizeId md) rd = mapVals normalizeId md := by
    apply dictMerge_restore rd (mapVals normalizeId md) (mapVals normalizeId md) rfl
    · rw [dkeys_mapVals]
      exact hnd
    · intro k _
      rfl
    · intro k hk
      rw [dkeys_mapVals]
      rw [hmdeq]
      exact mem_dkeys_dictMerge_right (toDict L) rd k hk
    · intro k w hlast
      rw [dlookup_mapVals]
      have hlk : dlookup k md = some w := by
        rw [hmdeq, dlookup_dictMerge, hlast]
      rw [hlk]
      have hw_mem : (k, w) ∈ rd := lastEntry_some_mem k w rd hlast
      have hw_id : w.id ≠ OptField.absent := (hrdmem (k, w) hw_mem).2.2
      show some (normalizeId w) = some w
      rw [normalizeId_of_id_present w hw_id]
  have hmDict2 : mergedDict M1 R = .ok (mapVals normalizeId md) := by
    rw [mergedDict, hrd]
    show Except.ok (dictMerge (toDict M1) rd) = Except.ok (mapVals normalizeId md)
    rw [htd, hmd2]
  have hdec2 := merge_terms_ok_decomp histories q M1 R (mapVals normalizeId md) hmDict2
  have hcache2 : mergeCache histories q M1 (mapVals normalizeId md) = [] :=
    buildCache_const_of_no_new (toDict M1) histories q hno2
      (termIds (dvalues (mapVals normalizeId md))) []
  rw [hdec2, hcache2]
  have hvals2 : dvalues (mapVals normalizeId md) = (dvalues md).map normalizeId :=
    dvalues_mapVals normalizeId md
  rw [hvals2]
  have hfinal : ((dvalues md).map normalizeId).map (processTerm []) =
      (dvalues md).map normalizeId := by
    rw [List.map_map]
    apply List.map_congr_left
    intro t _
    show processTerm [] (normalizeId t) = normalizeId t
    rw [processTerm_of_attached_nil [] (normalizeId t)
      (attachedHistory_nil_cache (normalizeId (normalizeId t))), normalizeId_idem]
  rw [hfinal, ← hM1]

/-- C5, witness for `C5_merge_idempotent`: the empty snapshots merge to
the empty collection, and re-merging that result with the same (empty)
remote returns it unchanged. -/
theorem C5_merge_idempotent_witness :
    merge_terms historiesEmpty [] [] none = Except.ok [] :=
  C5_merge_idempotent historiesEmpty none [] [] [] rfl (fun _ => rfl) (fun _ => rfl)

end SyncTerms
